import Mathlib

/-!
Verification development for the Sigma-Gloves-Chatbot matching engine.

This file gives a shallow embedding, over `List Char` and `ℚ`, of the four
text matchers of the repository:

* `KnowledgeEngine` (src/assets/knowledge_engine.js): `normalizeText`,
  `tokenize`, `lcsLength`, `tokenOverlapScore`, `lcsRatio`, `keywordHitScore`,
  `scoreCandidate`, `query`, `init`;
* `IntentMatcher` (src/assets/intent_matcher.js): `normalizeFa`, `tokenSet`,
  `scoreForTextAgainstList`;
* `IndustryIndexer v3.0` (src/unnamed/part_000, first IIFE): `normalizeText`,
  `tokensOf`, `buildIndex`, `bestMatch`, `addIndustry`;
* the second `IndustryIndexer` (same file, second IIFE): `normalize`,
  `tokensOf`, `levenshtein`, `levSim`, `scoreAgainstAlias`,
  `scoreAgainstIndustry`, `buildIndex`;
* the second `ProductMatcher` (same file): `norm`, `scoreProduct`,
  `pickProducts`.

Strings are embedded as `List Char`; JavaScript numbers as `ℚ` (all the
constants involved are exact decimals, and the scores computed in the claims
stay well inside the exactly-representable range of doubles, so rational
arithmetic is a faithful model); JS `Map`/`Set` (insertion-ordered) as
association lists with first-insertion order.  The JS regex character classes
`\s`, `\p{L}`, `\p{N}` and `\w` are modeled by explicit code-point range
predicates covering ASCII and the Arabic block, which are the only scripts
appearing in the catalogs and claims.  `String.prototype.toLowerCase` is
modeled on ASCII (the Persian letters involved are caseless).  JS `sort`
(stable) is modeled by the stable `List.insertionSort` on the same comparator.
-/

namespace SG

/-- Model of the JS regex class `\s` (whitespace): space, tab, LF, CR,
vertical tab, form feed, NBSP and BOM/ZWNBSP (U+FEFF), which are the
whitespace characters relevant to the sources. -/
def isWs (c : Char) : Bool :=
  c.toNat = 32 || c.toNat = 9 || c.toNat = 10 || c.toNat = 13 ||
  c.toNat = 11 || c.toNat = 12 || c.toNat = 160 || c.toNat = 0xFEFF

/-- The zero-width characters removed by KnowledgeEngine.normalizeText:
`/[​-‍﻿]/`. -/
def isZw (c : Char) : Bool :=
  c.toNat = 0x200B || c.toNat = 0x200C || c.toNat = 0x200D || c.toNat = 0xFEFF

/-- Model of the JS regex class `\p{N}` restricted to ASCII digits and the
two Arabic-script digit rows. -/
def uN (c : Char) : Bool :=
  (48 ≤ c.toNat && c.toNat ≤ 57) ||
  (0x660 ≤ c.toNat && c.toNat ≤ 0x669) ||
  (0x6F0 ≤ c.toNat && c.toNat ≤ 0x6F9)

/-- Model of the JS regex class `\p{L}` restricted to basic Latin letters and
the letters of the Arabic Unicode block (excluding the digits of the block). -/
def uL (c : Char) : Bool :=
  (97 ≤ c.toNat && c.toNat ≤ 122) ||
  (65 ≤ c.toNat && c.toNat ≤ 90) ||
  (0x620 ≤ c.toNat && c.toNat ≤ 0x64A) ||
  (0x66E ≤ c.toNat && c.toNat ≤ 0x6D3 && !(0x6F0 ≤ c.toNat && c.toNat ≤ 0x6F9)) ||
  c.toNat = 0x6D5

/-- Character kept by IndustryIndexer v3.0's filter
`/[^؀-ۿa-z0-9\s\-\/]/gi` (the `i` flag also keeps `A-Z`). -/
def keepV3 (c : Char) : Bool :=
  (0x600 ≤ c.toNat && c.toNat ≤ 0x6FF) ||
  (97 ≤ c.toNat && c.toNat ≤ 122) ||
  (65 ≤ c.toNat && c.toNat ≤ 90) ||
  (48 ≤ c.toNat && c.toNat ≤ 57) ||
  isWs c || c = '-' || c = '/'

/-- Apply a finite character substitution given as an association list:
the common shape of all the `String.replace` character folds in the sources. -/
def applyMap (m : List (Char × Char)) (c : Char) : Char :=
  match m.find? (fun p => p.1 = c) with
  | some p => p.2
  | none => c

/-- ASCII model of `String.prototype.toLowerCase`. -/
def lowerPairs : List (Char × Char) :=
  [('A','a'),('B','b'),('C','c'),('D','d'),('E','e'),('F','f'),('G','g'),
   ('H','h'),('I','i'),('J','j'),('K','k'),('L','l'),('M','m'),('N','n'),
   ('O','o'),('P','p'),('Q','q'),('R','r'),('S','s'),('T','t'),('U','u'),
   ('V','v'),('W','w'),('X','x'),('Y','y'),('Z','z')]

def jsLower (c : Char) : Char := applyMap lowerPairs c

/-- IntentMatcher.normalizeFa's character folds: `ي→ی`, `ك→ک`, and the digit
fold `d => String.fromCharCode(48 + '۰'.charCodeAt(0) - d.charCodeAt(0))`,
whose subtraction is reversed, sending `۰..۹` to the characters of codes
`48 - digitvalue` (i.e. `0 / . - , + * ) ( '`). -/
def faPairs : List (Char × Char) :=
  [('ي','ی'),('ك','ک'),
   ('۰','0'),('۱','/'),('۲','.'),('۳','-'),('۴',','),('۵','+'),
   ('۶','*'),('۷',')'),('۸','('),('۹','\'')]

/-- The second IndustryIndexer's folds `ي→ی`, `ك→ک` (also used by the second
ProductMatcher's `norm`). -/
def ykPairs : List (Char × Char) := [('ي','ی'),('ك','ک')]

/-- The second IndustryIndexer's digit fold
`d => String(d.charCodeAt(0) - 1776)`: Eastern Arabic-Indic digits to the
corresponding ASCII digits. -/
def iiDigitPairs : List (Char × Char) :=
  [('۰','0'),('۱','1'),('۲','2'),('۳','3'),('۴','4'),
   ('۵','5'),('۶','6'),('۷','7'),('۸','8'),('۹','9')]

/-- IndustryIndexer v3.0's script folds (line 14 of part_000):
`ي→ی`, `ك→ک`, `أ|إ|آ→ا`, `ۀ→ه`, `ة→ه`. -/
def v3FoldPairs : List (Char × Char) :=
  [('ي','ی'),('ك','ک'),('أ','ا'),('إ','ا'),('آ','ا'),('ۀ','ه'),('ة','ه')]

/-- The punctuation strip `/[^\p{L}\p{N}\s]/gu → ' '` shared by
KnowledgeEngine.normalizeText, IntentMatcher.normalizeFa and the second
IndustryIndexer's normalize. -/
def imPunct (c : Char) : Char := if uL c || uN c || isWs c then c else ' '

/-- IndustryIndexer v3.0's keep-filter replacement (non-kept chars → ' '). -/
def v3Punct (c : Char) : Char := if keepV3 c then c else ' '

/-- IndustryIndexer v3.0's separator collapse `/[\-\/_]/g → ' '`. -/
def dashSp (c : Char) : Char := if c = '-' || c = '/' || c = '_' then ' ' else c

/-- Whitespace-run collapse, the JS `replace(/\s+/g, ' ')`: the Boolean flag
records whether the previous character was whitespace (in which case further
whitespace is dropped instead of emitting another space). -/
def collapseAux : Bool → List Char → List Char
  | _, [] => []
  | pw, c :: cs =>
    if isWs c then
      if pw then collapseAux true cs else ' ' :: collapseAux true cs
    else c :: collapseAux false cs

def collapseWs (l : List Char) : List Char := collapseAux false l

/-- Remove a maximal whitespace suffix (the trailing half of JS `trim`). -/
def trimEndWs : List Char → List Char
  | [] => []
  | c :: cs =>
    let r := trimEndWs cs
    if r.isEmpty then (if isWs c then [] else [c]) else c :: r

/-- Model of JS `String.prototype.trim`. -/
def trimWs (l : List Char) : List Char := trimEndWs (l.dropWhile isWs)

def firstNotWs : List Char → Bool
  | [] => true
  | c :: _ => !isWs c

def lastNotWs : List Char → Bool
  | [] => true
  | [c] => !isWs c
  | _ :: c :: cs => lastNotWs (c :: cs)

/-- No two adjacent whitespace characters. -/
def noWsRun : List Char → Bool
  | [] => true
  | [_] => true
  | a :: b :: r => !(isWs a && isWs b) && noWsRun (b :: r)

/- ### The four normalizers -/

/-- KnowledgeEngine.normalizeText (knowledge_engine.js lines 36-43):
lowercase, strip zero-width characters, replace non-letter/digit/space
characters with a space, collapse whitespace runs, trim. -/
def keNormalizeText (s : List Char) : List Char :=
  trimWs (collapseWs (((s.map jsLower).filter (fun c => !isZw c)).map imPunct))

/-- IntentMatcher.normalizeFa (intent_matcher.js lines 7-15): trim, lowercase,
fold `ي ك` and (buggily) the Eastern digits, strip punctuation to spaces,
collapse whitespace runs.  Note there is no trailing trim. -/
def imNormalizeFa (s : List Char) : List Char :=
  collapseWs ((((trimWs s).map jsLower).map (applyMap faPairs)).map imPunct)

/-- The second IndustryIndexer's normalize (part_000 lines 554-565): trim,
lowercase, fold `ي ك`, fold Eastern digits to ASCII, strip punctuation to
spaces, collapse whitespace runs.  No trailing trim. -/
def iiNormalize (s : List Char) : List Char :=
  collapseWs (((((trimWs s).map jsLower).map (applyMap ykPairs)).map
    (applyMap iiDigitPairs)).map imPunct)

/-- IndustryIndexer v3.0's normalizeText (part_000 lines 11-21): script folds,
lowercase, keep Persian/Latin/digit/space/hyphen/slash (others to space),
separators `- / _` to space, collapse whitespace runs, trim. -/
def v3Normalize (s : List Char) : List Char :=
  trimWs (collapseWs ((((s.map (applyMap v3FoldPairs)).map jsLower).map
    v3Punct).map dashSp))

/-- The second ProductMatcher's norm (part_000 lines 1236-1239): trim,
lowercase, fold `ي ك`. -/
def pmNorm (s : List Char) : List Char :=
  ((trimWs s).map jsLower).map (applyMap ykPairs)

/- ### Split / join / tokenizers -/

/-- JS `String.prototype.split(' ')` (single-space separator). -/
def splitOnSp (l : List Char) : List (List Char) :=
  l.foldr (fun c acc =>
    if c = ' ' then [] :: acc
    else match acc with
         | h :: t => (c :: h) :: t
         | [] => [[c]]) [[]]

/-- JS `Array.prototype.join(' ')`. -/
def joinSp (ts : List (List Char)) : List Char := List.intercalate [' '] ts

/-- KnowledgeEngine.tokenize (lines 45-49): normalize, split on spaces,
drop empty tokens. -/
def keTokenize (s : List Char) : List (List Char) :=
  let t := keNormalizeText s
  if t = [] then [] else (splitOnSp t).filter (fun x => !x.isEmpty)

/-- IntentMatcher.tokenSet (lines 24-26): normalizeFa, split, drop empties. -/
def imTokenSet (s : List Char) : List (List Char) :=
  (splitOnSp (imNormalizeFa s)).filter (fun x => !x.isEmpty)

/-- IndustryIndexer v3.0's tokensOf (lines 22-24): normalize, split, keep
tokens of length at least 2. -/
def v3TokensOf (s : List Char) : List (List Char) :=
  (splitOnSp (v3Normalize s)).filter (fun t => !t.isEmpty && decide (2 ≤ t.length))

/-- The second IndustryIndexer's tokensOf (lines 570-572): normalize, split,
drop empties. -/
def iiTokensOf (s : List Char) : List (List Char) :=
  (splitOnSp (iiNormalize s)).filter (fun x => !x.isEmpty)

/-- JS substring containment `haystack.indexOf(needle) !== -1`. -/
def containsSeg (pat : List Char) : List Char → Bool
  | [] => pat.isEmpty
  | c :: rest => pat.isPrefixOf (c :: rest) || containsSeg pat rest

/- ### Edit distance and longest common subsequence (row DP, as in source) -/

/-- One inner pass of the second IndustryIndexer's levenshtein row loop
(part_000 lines 585-592): walking `b`, carrying `prev[j]` (head of `ps`),
`prev[j-1]` (`pd`) and `cur[j-1]` (`cp`). -/
def levRowAux (ai : Char) : List Char → List Nat → Nat → Nat → List Nat
  | [], _, _, _ => []
  | _ :: _, [], _, _ => []
  | bj :: bs, pj :: ps, pd, cp =>
    let cost := if ai = bj then 0 else 1
    let cj := min (pj + 1) (min (cp + 1) (pd + cost))
    cj :: levRowAux ai bs ps pj cj

/-- The outer row loop: `i` is the current row index (`cur[0] = i`). -/
def levRows (b : List Char) : List Char → Nat → List Nat → List Nat
  | [], _, prev => prev
  | ai :: arest, i, prev =>
    let cur := i :: (match prev with
                     | p0 :: ps => levRowAux ai b ps p0 i
                     | [] => [])
    levRows b arest (i + 1) cur

/-- The second IndustryIndexer's levenshtein (part_000 lines 577-594). -/
def levenshtein (a b : List Char) : Nat :=
  if a = b then 0
  else if a.length = 0 then b.length
  else if b.length = 0 then a.length
  else (levRows b a 1 (List.range (b.length + 1))).getLastD 0

/-- levSim (lines 597-603): `max 0 (1 - d / max(len))`, with similarity 1 for
two empty strings. -/
def levSim (a b : List Char) : ℚ :=
  let maxL := max a.length b.length
  if maxL = 0 then 1
  else max 0 (1 - (levenshtein a b : ℚ) / (maxL : ℚ))

/-- Inner pass of KnowledgeEngine's character/token LCS row DP
(knowledge_engine.js lines 80-92 and 67-77). -/
def lcsRowAux {α : Type} [DecidableEq α] (ai : α) :
    List α → List Nat → Nat → Nat → List Nat
  | [], _, _, _ => []
  | _ :: _, [], _, _ => []
  | bj :: bs, pj :: ps, pd, cp =>
    let cj := if ai = bj then pd + 1 else max pj cp
    cj :: lcsRowAux ai bs ps pj cj

def lcsRows {α : Type} [DecidableEq α] (b : List α) : List α → List Nat → List Nat
  | [], prev => prev
  | ai :: arest, prev =>
    let cur := 0 :: (match prev with
                     | p0 :: ps => lcsRowAux ai b ps p0 0
                     | [] => [])
    lcsRows b arest cur

def lcsLen {α : Type} [DecidableEq α] (a b : List α) : Nat :=
  (lcsRows b a (List.replicate (b.length + 1) 0)).getLastD 0

/-- Keep the first occurrence of each element (JS `new Set(...)` iteration
order); `seen` accumulates the elements already emitted. -/
def dedupAux {α : Type} [DecidableEq α] (seen : List α) : List α → List α
  | [] => []
  | a :: as => if a ∈ seen then dedupAux seen as else a :: dedupAux (a :: seen) as

def dedupFirst {α : Type} [DecidableEq α] (l : List α) : List α := dedupAux [] l

/-- KnowledgeEngine.lcsLength (lines 52-93): the length guards, the switch to
token-level LCS above 300 characters, and the character DP. -/
def keLcsLength (a b : List Char) : Nat :=
  if a.length = 0 || b.length = 0 then 0
  else if 300 < a.length || 300 < b.length then
    let ta := keTokenize a
    let tb := keTokenize b
    if ta.length = 0 || tb.length = 0 then 0 else lcsLen ta tb
  else lcsLen a b

/- ### The second IndustryIndexer: alias scoring (part_000 lines 546-795) -/

/-- The reason component of scoreAgainstAlias's result (the source's
template strings `phrase:`, `fuzzy:`, `tokens:h/n`). -/
inductive IIReason : Type
  | phrase (al : List Char)
  | fuzzy (a : List Char)
  | tokens (hit : ℚ) (n : Nat)
deriving DecidableEq

/-- Alias token list: `alias.split(' ').filter(Boolean)` (aliases arrive
already normalized). -/
def aliasTokensOf (al : List Char) : List (List Char) :=
  (splitOnSp al).filter (fun x => !x.isEmpty)

/-- Per-alias-token contribution inside scoreAgainstAlias's hit loop
(lines 639-645): exact token membership counts 1, otherwise the first query
token containing the alias token (length ≥ 3) counts 0.9. -/
def tokContrib (textTokens : List (List Char)) (kt : List Char) : ℚ :=
  if textTokens.contains kt then 1
  else if textTokens.any (fun tt => containsSeg kt tt && decide (3 ≤ kt.length))
  then 9/10 else 0

def hitCountII (textTokens : List (List Char)) (ats : List (List Char)) : ℚ :=
  ats.foldl (fun h kt => h + tokContrib textTokens kt) 0

def tokenRatioII (textTokens : List (List Char)) (al : List Char) : ℚ :=
  let ats := aliasTokensOf al
  if ats.length = 0 then 0 else hitCountII textTokens ats / (ats.length : ℚ)

/-- Best fuzzy similarity of a single-token alias over the query tokens
(lines 652-656). -/
def bestSimII (a : List Char) (textTokens : List (List Char)) : ℚ :=
  textTokens.foldl (fun b tt => max b (levSim a tt)) 0

/-- scoreAgainstAlias (part_000 lines 631-664). -/
def scoreAgainstAlias (textTokens : List (List Char)) (joinedText : List Char)
    (al : List Char) : ℚ × IIReason :=
  if containsSeg al joinedText then (1, IIReason.phrase al)
  else
    let ats := aliasTokensOf al
    let hit := hitCountII textTokens ats
    let ratio := if ats.length = 0 then 0 else hit / (ats.length : ℚ)
    match ats with
    | [a] =>
      let bs := bestSimII a textTokens
      if 3/4 ≤ bs then (max ratio (bs * (9/10)), IIReason.fuzzy a)
      else (min 1 (ratio * (17/20)), IIReason.tokens hit ats.length)
    | _ => (min 1 (ratio * (17/20)), IIReason.tokens hit ats.length)

/-- buildIndex of the second IndustryIndexer (lines 617-625): normalize the
aliases of each industry code, drop empties, de-duplicate. -/
def buildIndexII (raw : List (List Char × List (List Char))) :
    List (List Char × List (List Char)) :=
  raw.map (fun e => (e.1, dedupFirst ((e.2.map iiNormalize).filter
    (fun a => !a.isEmpty))))

/-- The running best of scoreAgainstIndustry. -/
structure IIBest : Type where
  code : List Char
  aliasKw : Option (List Char)
  score : ℚ
  reason : Option IIReason
deriving DecidableEq

/-- Best alias score within one industry (lines 679-685, strict `>`). -/
def bestAliasFor (textTokens : List (List Char)) (joined : List Char)
    (aliases : List (List Char)) : ℚ × Option (List Char) × Option IIReason :=
  aliases.foldl (fun lb al =>
    let r := scoreAgainstAlias textTokens joined al
    if lb.1 < r.1 then (r.1, some al, some r.2) else lb) (0, none, none)

/-- scoreAgainstIndustry (lines 670-693), returning the overall best (the
`details` list is a per-code copy of the same data and is omitted). -/
def scoreAgainstIndustry (idx : List (List Char × List (List Char)))
    (text : List Char) : IIBest :=
  let txt := iiNormalize text
  let textTokens := iiTokensOf txt
  let joined := joinSp textTokens
  idx.foldl (fun best e =>
    let lb := bestAliasFor textTokens joined e.2
    if best.score < lb.1 then ⟨e.1, lb.2.1, lb.1, lb.2.2⟩ else best)
    ⟨[], none, 0, none⟩

/-- The reporting floor `MIN_SCORE` of the second IndustryIndexer
(line 549). -/
def MIN_SCORE : ℚ := 1/10

/- ### IntentMatcher: scoreForTextAgainstList (intent_matcher.js 28-52) -/

def scoreForTextAgainstList (textTokens : List (List Char))
    (list : List (List Char)) : ℚ :=
  list.foldl (fun score k =>
    let nk := imNormalizeFa k
    if nk = [] then score
    else
      let parts := (splitOnSp nk).filter (fun x => !x.isEmpty)
      if 1 < parts.length then
        (if containsSeg nk (joinSp textTokens) then score + 1 else score)
      else
        if textTokens.contains nk then score + 1
        else if textTokens.any (fun tk => containsSeg nk tk && decide (3 ≤ nk.length))
        then score + 3/5 else score) 0

/- ### IndustryIndexer v3.0 (part_000 lines 9-533) -/

/-- An entry of the v3.0 `INDUSTRIES` array / a valid argument of
`addIndustry`. -/
structure Industry : Type where
  code : List Char
  name_fa : List Char
  name_en : List Char
  keywords : List (List Char)
deriving DecidableEq

/-- Pair each element with its array index, starting from `n`. -/
def enumFrom {α : Type} : Nat → List α → List (Nat × α)
  | _, [] => []
  | n, a :: as => (n, a) :: enumFrom (n + 1) as

/-- The index keys contributed by one keyword (buildIndex, lines 386-399):
the full normalized phrase, then its tokens of length ≥ 2; an empty
normalization contributes nothing. -/
def keysOfKeyword (kw : List Char) : List (List Char) :=
  let nk := v3Normalize kw
  if nk = [] then []
  else nk :: ((splitOnSp nk).filter (fun x => !x.isEmpty)).filter
    (fun p => decide (2 ≤ p.length))

/-- Insert an industry array index under a key, with JS `Map`/`Set`
insertion-order and no-duplicate semantics. -/
def idxInsert (key : List Char) (i : Nat) :
    List (List Char × List Nat) → List (List Char × List Nat)
  | [] => [(key, [i])]
  | (k, is) :: rest =>
    if k = key then (k, if i ∈ is then is else is ++ [i]) :: rest
    else (k, is) :: idxInsert key i rest

/-- All (industry index, key) pairs in source iteration order. -/
def allKeyPairs (l : List Industry) : List (Nat × List Char) :=
  (enumFrom 0 l).flatMap (fun e =>
    e.2.keywords.flatMap (fun kw => (keysOfKeyword kw).map (fun k => (e.1, k))))

/-- buildIndex of IndustryIndexer v3.0 (lines 382-406). -/
def buildIndexV3 (l : List Industry) : List (List Char × List Nat) :=
  (allKeyPairs l).foldl (fun m p => idxInsert p.2 p.1 m) []

/-- Exact-key lookup (`keywordIndex.has/get`). -/
def idxLookup (idx : List (List Char × List Nat)) (k : List Char) :
    Option (List Nat) :=
  (idx.find? (fun e => e.1 = k)).map (fun e => e.2)

/-- Add `w` to the running per-industry score (`foundIndustries` /
`hitsByIdx` Maps, insertion-ordered). -/
def bumpScore (i : Nat) (w : ℚ) : List (Nat × ℚ) → List (Nat × ℚ)
  | [] => [(i, w)]
  | (j, s) :: rest =>
    if j = i then (j, s + w) :: rest else (j, s) :: bumpScore i w rest

/-- One Phase 1 bump pass over a key's industry set (the inner loop of
lines 417-425). -/
def p1Bumps (is : List Nat) (acc : List (Nat × ℚ)) : List (Nat × ℚ) :=
  is.foldl (fun a i => bumpScore i (3/2) a) acc

/-- One Phase 1 step for a single index entry. -/
def p1Step (txt : List Char) (acc : List (Nat × ℚ))
    (e : List Char × List Nat) : List (Nat × ℚ) :=
  if containsSeg e.1 txt then p1Bumps e.2 acc else acc

/-- Phase 1 accumulation (lines 417-425): every indexed key occurring in the
normalized query adds 1.5 to each owning industry. -/
def phase1Found (idx : List (List Char × List Nat)) (txt : List Char) :
    List (Nat × ℚ) :=
  idx.foldl (p1Step txt) []

/-- The Phase 1 accumulator holds exactly industry `n`, with at least one
1.5 bump. -/
def p1Only (n : Nat) (a : List (Nat × ℚ)) : Prop :=
  ∃ q, a = [(n, q)] ∧ 3/2 ≤ q

/-- The Phase 1 accumulator is empty or holds exactly industry `n`. -/
def p1Acc (n : Nat) (a : List (Nat × ℚ)) : Prop :=
  a = [] ∨ p1Only n a

/-- Keyword count of industry `i`, as the `Math.max(1, ...)` denominator. -/
def kwDenom (l : List Industry) (i : Nat) : ℚ :=
  max 1 (((l[i]?.map (fun ind => ind.keywords.length)).getD 0 : Nat) : ℚ)

/-- `best` selection over an accumulated map (strict `>` keeps the first
maximum), normalizing by the keyword count (lines 428-433 and 458-463). -/
def pickBestFound (l : List Industry) (found : List (Nat × ℚ)) :
    Option (Nat × ℚ) :=
  found.foldl (fun best e =>
    let nrm := e.2 / kwDenom l e.1
    match best with
    | none => some (e.1, nrm)
    | some b => if b.2 < nrm then some (e.1, nrm) else some b) none

/-- What a v3.0 bestMatch result was matched by. -/
inductive V3Matched : Type
  | phraseIdx
  | phraseIdxWeak
  | tokenOverlap
  | substrKey (k : List Char)
deriving DecidableEq

/-- A v3.0 bestMatch result (`code`, `score`, `matched`; the copied
`name_fa`/`name_en` fields are omitted). -/
structure V3Res : Type where
  code : List Char
  score : ℚ
  matched : V3Matched
deriving DecidableEq

def codeOf (l : List Industry) (i : Nat) : List Char :=
  (l[i]?.map (fun ind => ind.code)).getD []

/-- Phase 1 decision (lines 426-443). -/
def phase1Res (l : List Industry) (idx : List (List Char × List Nat))
    (txt : List Char) (threshold : ℚ) : Option V3Res :=
  let found := phase1Found idx txt
  if found.isEmpty then none
  else
    match pickBestFound l found with
    | none => none
    | some b =>
      if 1/2 ≤ b.2 then some ⟨codeOf l b.1, 1, V3Matched.phraseIdx⟩
      else if threshold * 2 ≤ b.2 then
        some ⟨codeOf l b.1, min (9/10) b.2, V3Matched.phraseIdxWeak⟩
      else none

/-- Phase 2: token-overlap scoring (lines 446-469). -/
def phase2Res (l : List Industry) (idx : List (List Char × List Nat))
    (txt : List Char) (threshold : ℚ) : Option V3Res :=
  let tkns := v3TokensOf txt
  if tkns.isEmpty then none
  else
    let hits := tkns.foldl (fun acc t =>
      match idxLookup idx t with
      | some inds => inds.foldl (fun a i => bumpScore i 1 a) acc
      | none => acc) []
    if hits.isEmpty then none
    else
      match pickBestFound l hits with
      | none => none
      | some b =>
        if threshold ≤ b.2 then
          some ⟨codeOf l b.1, b.2, V3Matched.tokenOverlap⟩
        else none

/-- Phase 3: first indexed key (length ≥ 4) one of whose 4-character
substrings occurs in the query (lines 472-484); returns the key's first
industry with score 0.18. -/
def phase3Res (l : List Industry) (idx : List (List Char × List Nat))
    (txt : List Char) : Option V3Res :=
  idx.findSome? (fun e =>
    if 4 ≤ e.1.length &&
       (List.range (e.1.length - 3)).any
         (fun i => containsSeg ((e.1.drop i).take 4) txt) then
      match e.2.head? with
      | some j => some ⟨codeOf l j, 9/50, V3Matched.substrKey e.1⟩
      | none => none
    else none)

/-- bestMatch of IndustryIndexer v3.0 (lines 410-488), as a function of the
industry array (the module state); `threshold` defaults to 0.25 in source. -/
def bestMatchV3 (l : List Industry) (raw : List Char) (threshold : ℚ) :
    Option V3Res :=
  let txt := v3Normalize raw
  if txt = [] then none
  else
    let idx := buildIndexV3 l
    match phase1Res l idx txt threshold with
    | some r => some r
    | none =>
      match phase2Res l idx txt threshold with
      | some r => some r
      | none => phase3Res l idx txt

/-- addIndustry (lines 491-502): validates `code` and pushes onto the
industry array (the keyword-array check of the source is carried by the
`Industry` type; the index rebuild is recomputed inside `bestMatchV3`). -/
def addIndustry (l : List Industry) (obj : Industry) : Option (List Industry) :=
  if obj.code = [] then none else some (l ++ [obj])

/- ### KnowledgeEngine (knowledge_engine.js) -/

/-- A knowledge-base entry after init's per-entry normalization
(lines 271-286). -/
structure KBEntry : Type where
  id : List Char
  title : List Char
  snippet : List Char
  url : List Char
  typ : List Char
  keywords : List (List Char)
deriving DecidableEq

/-- The JS regex word class `\w` = `[A-Za-z0-9_]` (used by `\b`). -/
def isWordCh (c : Char) : Bool :=
  (48 ≤ c.toNat && c.toNat ≤ 57) || (65 ≤ c.toNat && c.toNat ≤ 90) ||
  (97 ≤ c.toNat && c.toNat ≤ 122) || c = '_'

/-- `\b` before the match: at the string start it requires a word character
to follow; otherwise word-ness must change across the boundary. -/
def boundOkL (u k : List Char) : Bool :=
  match u.getLast?, k.head? with
  | none, some c => isWordCh c
  | some x, some c => isWordCh x != isWordCh c
  | _, none => false

/-- `\b` after the match (symmetric). -/
def boundOkR (k v : List Char) : Bool :=
  match k.getLast?, v.head? with
  | some c, none => isWordCh c
  | some c, some x => isWordCh c != isWordCh x
  | none, _ => false

/-- `new RegExp('\\b' + esc(kw) + '\\b', 'iu').test(txt)` with the keyword
escaped to a literal: some occurrence of `kw` in `txt` with word boundaries
on both sides. -/
def wordBoundMatch (kw txt : List Char) : Bool :=
  (List.range (txt.length + 1)).any (fun i =>
    kw.isPrefixOf (txt.drop i) && boundOkL (txt.take i) kw &&
    boundOkR kw ((txt.drop i).drop kw.length))

/-- tokenOverlapScore (lines 96-104): Jaccard over token sets. -/
def tokenOverlapScore (a b : List Char) : ℚ :=
  let sA := dedupFirst (keTokenize a)
  let sB := dedupFirst (keTokenize b)
  if sA.length = 0 || sB.length = 0 then 0
  else ((sA.filter (fun x => sB.contains x)).length : ℚ) /
       ((dedupFirst (sA ++ sB)).length : ℚ)

/-- lcsRatio (lines 107-111). -/
def lcsRatio (a b : List Char) : ℚ :=
  let len := keLcsLength a b
  let m := max a.length b.length
  min 1 ((len : ℚ) / ((if m = 0 then 1 else m : Nat) : ℚ))

/-- keywordHitScore (lines 114-127): count keywords whose word-bounded,
case-folded occurrence appears in the normalized text. -/
def keywordHitScore (text : List Char) (e : KBEntry) : ℚ :=
  let txt := keNormalizeText text
  if e.keywords.isEmpty then 0
  else
    let hits := (e.keywords.filter
      (fun kw => !kw.isEmpty && wordBoundMatch (kw.map jsLower) txt)).length
    if hits = 0 then 0 else min 1 ((hits : ℚ) / (e.keywords.length : ℚ))

/-- The weight configuration `CFG` (lines 20-26). -/
def keTokenOverlapWeight : ℚ := 9/20
def keLcsWeight : ℚ := 7/20
def keKeywordHitWeight : ℚ := 1/5
def keMinScoreThreshold : ℚ := 1/10
def keDefaultTopN : Nat := 6

/-- scoreCandidate (lines 130-149): weighted sum of the three signals against
`entry.title || entry.snippet || ''`; also returns the components. -/
def scoreCandidate (text : List Char) (e : KBEntry) : ℚ × ℚ × ℚ × ℚ :=
  let b := if e.title ≠ [] then e.title else e.snippet
  let tov := tokenOverlapScore text b
  let lcsR := lcsRatio text b
  let kH := keywordHitScore text e
  (keTokenOverlapWeight * tov + keLcsWeight * lcsR + keKeywordHitWeight * kH,
   tov, lcsR, kH)

/-- The `components` field of a query result. -/
inductive KEComps : Type
  | sig (tokenOverlap lcs keywordHit : ℚ)
  | fallback
deriving DecidableEq

structure KEQRes : Type where
  id : List Char
  title : List Char
  snippet : List Char
  url : List Char
  typ : List Char
  score : ℚ
  comps : KEComps
deriving DecidableEq

/-- Main-result comparator `(a, b) => b.score - a.score` as a `≤`-style
relation for the stable sort. -/
def keMainLe (a b : KEQRes) : Prop := b.score ≤ a.score

instance : DecidableRel keMainLe := fun a b => inferInstanceAs (Decidable (_ ≤ _))

/-- JS `<` on strings (UTF-16 lexicographic; all catalog characters are below
the surrogate range, where code-point order agrees). -/
def lexLt : List Char → List Char → Bool
  | [], [] => false
  | [], _ :: _ => true
  | _ :: _, [] => false
  | a :: as, b :: bs =>
    if a.toNat < b.toNat then true
    else if b.toNat < a.toNat then false
    else lexLt as bs

/-- Fallback comparator `b.score - a.score || a.title.length - b.title.length`
(line 355). -/
def keFbLe (a b : KEQRes) : Prop :=
  b.score < a.score ∨ (b.score = a.score ∧ a.title.length ≤ b.title.length)

instance : DecidableRel keFbLe := fun a b =>
  inferInstanceAs (Decidable (_ ∨ _))

/-- KnowledgeEngine.query (lines 302-363) on an initialized store, as a
function of the loaded `_kb` (the lazy intent/KB reload branches touch only
uninitialized state).  `topN = (options.topN) || 6`. -/
def keQuery (kb : List KBEntry) (text : List Char) (topN : Nat) :
    List KEQRes :=
  let tN := if topN = 0 then keDefaultTopN else topN
  if text = [] then []
  else
    let results := kb.filterMap (fun e =>
      let sc := scoreCandidate text e
      if keMinScoreThreshold ≤ sc.1 then
        some ⟨e.id, e.title, e.snippet, e.url, e.typ, sc.1,
              KEComps.sig sc.2.1 sc.2.2.1 sc.2.2.2⟩
      else none)
    let sorted := results.insertionSort keMainLe
    if sorted.isEmpty then
      let t := keNormalizeText text
      let fb := kb.filterMap (fun e =>
        let hay := keNormalizeText
          (e.title ++ [' '] ++ e.snippet ++ [' '] ++ joinSp e.keywords)
        if !t.isEmpty && containsSeg t hay then
          some ⟨e.id, e.title, e.snippet, e.url, e.typ, 1/20, KEComps.fallback⟩
        else none)
      (fb.insertionSort keFbLe).take tN
    else sorted.take tN

/-- A raw KB record before init's defensive normalization: the alternate
field names read by lines 271-286.  The shape dispatch of lines 250-268
(array / `items` / `knowledge` / `industries` / object) is upstream of these
records. -/
structure KBRaw : Type where
  id : Option (List Char)
  code : Option (List Char)
  title : Option (List Char)
  name_fa : Option (List Char)
  name : Option (List Char)
  snippet : Option (List Char)
  description : Option (List Char)
  desc : Option (List Char)
  url : Option (List Char)
  link : Option (List Char)
  typ : Option (List Char)
  metaTyp : Option (List Char)
  keywords : Option (List (List Char))
deriving DecidableEq

/-- JS `a || b` for possibly-absent strings (absent and empty are falsy). -/
def jsOr (o : Option (List Char)) (d : List Char) : List Char :=
  match o with
  | some s => if s = [] then d else s
  | none => d

/-- init's per-entry normalization (lines 271-286). -/
def keNormalizeEntry (idx : Nat) (r : KBRaw) : KBEntry :=
  let id := jsOr r.id (jsOr r.code (('k' :: 'b' :: '_' :: Nat.toDigits 10 idx)))
  let title := jsOr r.title (jsOr r.name_fa (jsOr r.name []))
  let snippet := jsOr r.snippet (jsOr r.description (jsOr r.desc []))
  let url := jsOr r.url (jsOr r.link [])
  let typ := jsOr r.typ (jsOr r.metaTyp [])
  let kws := match r.keywords with
             | some l => l
             | none => []
  let kws := if kws.isEmpty then (keTokenize title).take 8 else kws
  ⟨id, title, snippet, url, typ, kws⟩

/-- The result value of KnowledgeEngine.init. -/
inductive KEInitRes : Type
  | okCount (n : Nat)
  | failEmptyPath
  | failErr
deriving DecidableEq

/-- The engine state touched by init: `_kb` and `_indexInitialized`. -/
structure KEState : Type where
  kb : List KBEntry
  indexInitialized : Bool
deriving DecidableEq

/-- KnowledgeEngine.init (lines 230-297) as a state transition.  `fetchRes`
is the outcome of `fetch(kbPath)` + `res.json()`: `Except.error` for a
network/HTTP failure or a malformed payload (both reach the catch block),
`Except.ok` for a parsed record list.  Note lines 231-233 clear the store
before anything else, and the catch block (lines 291-296) leaves it
cleared. -/
def keInit (st : KEState) (kbPath : List Char)
    (fetchRes : Except (List Char) (List KBRaw)) : KEState × KEInitRes :=
  let cleared : KEState := ⟨[], false⟩
  if kbPath = [] then (cleared, KEInitRes.failEmptyPath)
  else
    match fetchRes with
    | Except.error _ => (⟨[], false⟩, KEInitRes.failErr)
    | Except.ok raws =>
      (⟨(enumFrom 0 raws).map (fun p => keNormalizeEntry p.1 p.2), true⟩,
       KEInitRes.okCount raws.length)

/- ### The second ProductMatcher (part_000 lines 1077-1422) -/

/-- A catalog product after init's setup (lines 1280-1284): `_tags` is the
normalized tag list and `_cutLevel` the extracted numeric cut level (or
nothing).  The untouched payload fields (`std`, `why`, raw `tags`) carry no
logic and are omitted. -/
structure PMProd : Type where
  id : List Char
  title_fa : List Char
  title_en : List Char
  url : List Char
  tags2 : List (List Char)
  cutLevel : Option Nat
deriving DecidableEq

/-- A pickProducts query `{ hazard, env, pref, industry, industryCode }`
(absent fields are the empty string). -/
structure PMQuery : Type where
  hazard : List Char
  env : List Char
  pref : List Char
  industry : List Char
  industryCode : List Char
deriving DecidableEq

/-- The reason tags pushed by scoreProduct. -/
inductive PMReason : Type
  | hazardExact
  | hazardPartial
  | envOily
  | envWet
  | envCold
  | envExact
  | prefGrip
  | prefComfort
  | prefDurability
  | prefCut
  | prefChemical
  | prefDexter
  | indChemical
  | indWelding
  | indGlass
  | indWarehouse
  | cutLevel (n : Nat)
deriving DecidableEq

/-- Hazard block (lines 1303-1313): exact tag match +1.0, else the first tag
sharing a substring either way +0.6. -/
def pmHazardStage (prod : PMProd) (qHaz : List Char) (s : ℚ × List PMReason) :
    ℚ × List PMReason :=
  if qHaz = [] then s
  else if prod.tags2.contains qHaz then (s.1 + 1, s.2 ++ [PMReason.hazardExact])
  else
    match prod.tags2.find? (fun t => containsSeg qHaz t || containsSeg t qHaz) with
    | some _ => (s.1 + 3/5, s.2 ++ [PMReason.hazardPartial])
    | none => s

/-- Environment block (lines 1316-1329). -/
def pmEnvStage (prod : PMProd) (qEnv : List Char) (s : ℚ × List PMReason) :
    ℚ × List PMReason :=
  if qEnv = [] then s
  else if qEnv = "oily".toList || containsSeg "oil".toList qEnv ||
          containsSeg "روغن".toList qEnv then
    (if prod.tags2.contains "oil".toList || prod.tags2.contains "nitrile".toList ||
        prod.tags2.contains "foam".toList then
      (s.1 + 3/5, s.2 ++ [PMReason.envOily]) else s)
  else if qEnv = "wet".toList || containsSeg "مرطوب".toList qEnv then
    (if prod.tags2.contains "foam".toList || prod.tags2.contains "latex".toList ||
        prod.tags2.contains "nitrile".toList then
      (s.1 + 9/20, s.2 ++ [PMReason.envWet]) else s)
  else if qEnv = "cold".toList then
    (if prod.tags2.contains "insulated".toList ||
        prod.tags2.contains "warm".toList then
      (s.1 + 1/2, s.2 ++ [PMReason.envCold]) else s)
  else
    match prod.tags2.find? (fun t => t = qEnv) with
    | some _ => (s.1 + 2/5, s.2 ++ [PMReason.envExact])
    | none => s

/-- One guarded `score += a; why.push(r)` statement of scoreProduct. -/
def pmBump (c : Bool) (a : ℚ) (r : PMReason) (s : ℚ × List PMReason) :
    ℚ × List PMReason :=
  if c then (s.1 + a, s.2 ++ [r]) else s

/-- Preference block (lines 1332-1339): six independent guarded additions,
applied innermost first (grip, comfort, durability, cut, chemical, dexter). -/
def pmPrefStage (prod : PMProd) (qPref : List Char) (s : ℚ × List PMReason) :
    ℚ × List PMReason :=
  if qPref = [] then s
  else
    pmBump (containsSeg "dexter".toList qPref &&
        prod.tags2.contains "dexterity".toList) (3/5) PMReason.prefDexter
      (pmBump (containsSeg "chemical".toList qPref &&
          prod.tags2.contains "chemical_resistance".toList) (4/5)
          PMReason.prefChemical
        (pmBump (containsSeg "cut".toList qPref &&
            (prod.tags2.contains "cut".toList ||
             prod.tags2.contains "high_cut".toList)) (9/10) PMReason.prefCut
          (pmBump (containsSeg "durab".toList qPref &&
              (prod.tags2.contains "durable".toList ||
               prod.tags2.contains "reinforced".toList)) (9/20)
              PMReason.prefDurability
            (pmBump (containsSeg "comfort".toList qPref &&
                (prod.tags2.contains "foam".toList ||
                 prod.tags2.contains "dexterity".toList ||
                 prod.tags2.contains "warm".toList)) (9/20) PMReason.prefComfort
              (pmBump (containsSeg "grip".toList qPref &&
                  prod.tags2.contains "grip".toList) (1/2) PMReason.prefGrip
                s)))))

/-- Industry-hint block (lines 1342-1348): four independent additions,
applied innermost first (chemical, welding, glass, warehouse). -/
def pmIndustryStage (prod : PMProd) (qInd : List Char) (s : ℚ × List PMReason) :
    ℚ × List PMReason :=
  if qInd = [] then s
  else
    pmBump (containsSeg "warehouse".toList qInd &&
        prod.tags2.contains "dexterity".toList) (1/5) PMReason.indWarehouse
      (pmBump (containsSeg "glass".toList qInd &&
          prod.tags2.contains "cut".toList) (1/4) PMReason.indGlass
        (pmBump (containsSeg "welding".toList qInd &&
            prod.tags2.contains "hppe".toList &&
            prod.tags2.contains "cut".toList) (1/5) PMReason.indWelding
          (pmBump (containsSeg "chemical".toList qInd &&
              (prod.tags2.contains "nitrile".toList ||
               prod.tags2.contains "chemical_resistance".toList)) (7/20)
              PMReason.indChemical s)))

/-- Cut-level bonus (lines 1351-1360): requires a truthy (non-zero) extracted
cut level. -/
def pmCutStage (prod : PMProd) (qHaz qPref : List Char) (s : ℚ × List PMReason) :
    ℚ × List PMReason :=
  if (qHaz ≠ [] && containsSeg "cut".toList qHaz) ||
     (qPref ≠ [] && containsSeg "cut".toList qPref) then
    match prod.cutLevel with
    | some n =>
      if n ≠ 0 then (s.1 + min 1 ((n : ℚ) * (12/100)), s.2 ++ [PMReason.cutLevel n])
      else s
    | none => s
  else s

/-- JS `Number(x.toFixed(3))` as round-to-3-decimals. -/
def fix3 (q : ℚ) : ℚ := ((round (q * 1000) : ℤ) : ℚ) / 1000

/-- scoreProduct (lines 1293-1369). -/
def scoreProduct (prod : PMProd) (query : PMQuery) : ℚ × List PMReason :=
  let qHaz := pmNorm query.hazard
  let qEnv := pmNorm query.env
  let qPref := pmNorm query.pref
  let qInd := pmNorm (if query.industry ≠ [] then query.industry
                      else query.industryCode)
  let s : ℚ × List PMReason := (0, [])
  let s := pmHazardStage prod qHaz s
  let s := pmEnvStage prod qEnv s
  let s := pmPrefStage prod qPref s
  let s := pmIndustryStage prod qInd s
  let s := pmCutStage prod qHaz qPref s
  let score := s.1 + 1/20
  (fix3 (min 1 score), s.2)

/-- A pickProducts output row (line 1381-1391; the copied `tags`, `std`,
`why` payload fields are omitted). -/
structure PMPick : Type where
  id : List Char
  title_fa : List Char
  title_en : List Char
  url : List Char
  matchScore : ℚ
  reasons : List PMReason
deriving DecidableEq

/-- The sort comparator of pickProducts (lines 1395-1398): score descending;
on ties `(b.title_fa > a.title_fa) ? 1 : -1`, i.e. `a` stays before `b`
unless `a.title_fa < b.title_fa` is false — as a `≤` relation. -/
def pmLe (a b : PMPick) : Prop :=
  a.matchScore > b.matchScore ∨
  (a.matchScore = b.matchScore ∧ lexLt a.title_fa b.title_fa = true)

instance : DecidableRel pmLe := fun a b => inferInstanceAs (Decidable (_ ∨ _))

/-- The `scored` array of pickProducts (lines 1379-1392). -/
def pmScoredOf (catalog : List PMProd) (query : PMQuery) : List PMPick :=
  catalog.map (fun p =>
    let s := scoreProduct p query
    (⟨p.id, p.title_fa, p.title_en, p.url, s.1, s.2⟩ : PMPick))

/-- pickProducts (lines 1377-1403): score the catalog, stable-sort by the
comparator, keep strictly positive scores, take `topN` (`opts.topN || 6`). -/
def pickProducts (catalog : List PMProd) (query : PMQuery) (topN : Nat) :
    List PMPick :=
  let tN := if topN = 0 then 6 else topN
  (((pmScoredOf catalog query).insertionSort pmLe).filter
    (fun x => decide (0 < x.matchScore))).take tN

/- ### Digit-fold helpers (claim C6) -/

/-- Test for the Eastern Arabic-Indic digits `۰-۹` (the source column of the
second IndustryIndexer's digit fold). -/
def isEasternDigit (c : Char) : Bool := iiDigitPairs.any (fun p => p.1 = c)

def easternDigit : Nat → Char
  | 0 => '۰' | 1 => '۱' | 2 => '۲' | 3 => '۳' | 4 => '۴'
  | 5 => '۵' | 6 => '۶' | 7 => '۷' | 8 => '۸' | _ => '۹'

def asciiDigit : Nat → Char
  | 0 => '0' | 1 => '1' | 2 => '2' | 3 => '3' | 4 => '4'
  | 5 => '5' | 6 => '6' | 7 => '7' | 8 => '8' | _ => '9'

/- Batteries marks the `Rat` field operations `@[irreducible]`; re-open them
for elaboration so that `decide` can evaluate concrete rational scores. -/
/-- A concrete industry whose single useful keyword `abcd` is diluted by
nineteen two-character filler keywords (for exercising the
`Math.max(1, keywords.length)` denominator of bestMatch). -/
def dilutedKeywords : List (List Char) :=
  "abcd".toList :: (["qa", "qb", "qc", "qd", "qe", "qf", "qg", "qh", "qi",
    "qj", "qk", "ql", "qm", "qn", "qo", "qp", "qq", "qr", "qs"].map
      String.toList)

def dilutedInd : Industry := ⟨"x".toList, [], [], dilutedKeywords⟩

attribute [local semireducible] Rat.add Rat.mul Rat.inv Rat.sub

/- ### Lemmas about the whitespace machinery -/

theorem noWsRun_tail {a : Char} {l : List Char} (h : noWsRun (a :: l) = true) :
    noWsRun l = true := by
  cases l with
  | nil => rfl
  | cons b r =>
    simp only [noWsRun, Bool.and_eq_true] at h
    exact h.2

theorem mem_collapseAux {c : Char} : ∀ {b : Bool} {l : List Char},
    c ∈ collapseAux b l → c = ' ' ∨ (c ∈ l ∧ isWs c = false) := by
  intro b l
  induction l generalizing b with
  | nil => intro h; simp [collapseAux] at h
  | cons a as ih =>
    intro h
    simp only [collapseAux] at h
    by_cases hw : isWs a
    · simp only [hw, if_true] at h
      by_cases hb : b
      · subst hb
        simp only [if_true] at h
        rcases ih h with h' | h'
        · exact Or.inl h'
        · exact Or.inr ⟨List.mem_cons_of_mem _ h'.1, h'.2⟩
      · simp only [hb, if_false] at h
        rcases List.mem_cons.mp h with h' | h'
        · exact Or.inl h'
        · rcases ih h' with h'' | h''
          · exact Or.inl h''
          · exact Or.inr ⟨List.mem_cons_of_mem _ h''.1, h''.2⟩
    · simp only [hw, if_false] at h
      rcases List.mem_cons.mp h with h' | h'
      · subst h'
        exact Or.inr ⟨List.mem_cons_self _ _, by simp [hw]⟩
      · rcases ih h' with h'' | h''
        · exact Or.inl h''
        · exact Or.inr ⟨List.mem_cons_of_mem _ h''.1, h''.2⟩

theorem firstNotWs_collapseAux_true : ∀ (l : List Char),
    firstNotWs (collapseAux true l) = true := by
  intro l
  induction l with
  | nil => rfl
  | cons a as ih =>
    simp only [collapseAux]
    by_cases hw : isWs a
    · simpa [hw] using ih
    · simp [hw, firstNotWs]

theorem noWsRun_cons_of {a : Char} {l : List Char}
    (h1 : noWsRun l = true) (h2 : isWs a = false ∨ firstNotWs l = true) :
    noWsRun (a :: l) = true := by
  cases l with
  | nil => rfl
  | cons b r =>
    simp only [noWsRun, Bool.and_eq_true, h1, and_true]
    rcases h2 with h2 | h2
    · simp [h2]
    · simp only [firstNotWs] at h2
      simp [Bool.eq_false_iff.mpr, (by simpa using h2 : isWs b = false)]

theorem noWsRun_collapseAux : ∀ (b : Bool) (l : List Char),
    noWsRun (collapseAux b l) = true := by
  intro b l
  induction l generalizing b with
  | nil => rfl
  | cons a as ih =>
    simp only [collapseAux]
    by_cases hw : isWs a
    · by_cases hb : b
      · simpa [hw, hb] using ih true
      · simp only [hw, if_true, hb, if_false]
        exact noWsRun_cons_of (ih true) (Or.inr (firstNotWs_collapseAux_true as))
    · simp only [hw, if_false]
      exact noWsRun_cons_of (ih false) (Or.inl (by simp [hw]))

theorem collapseAux_id : ∀ (l : List Char),
    noWsRun l = true → (∀ c ∈ l, isWs c = true → c = ' ') →
    (collapseAux false l = l ∧ (firstNotWs l = true → collapseAux true l = l)) := by
  intro l
  induction l with
  | nil => intro _ _; exact ⟨rfl, fun _ => rfl⟩
  | cons a as ih =>
    intro hrun hsp
    have hrun' : noWsRun as = true := noWsRun_tail hrun
    have hsp' : ∀ c ∈ as, isWs c = true → c = ' ' :=
      fun c hc => hsp c (List.mem_cons_of_mem _ hc)
    rcases Bool.eq_false_or_eq_true (isWs a) with hw | hw
    case inr =>
      refine ⟨?_, fun _ => ?_⟩ <;>
      · simp only [collapseAux, hw, Bool.false_eq_true, if_false]
        rw [(ih hrun' hsp').1]
    case inl =>
      have ha : a = ' ' := hsp a (List.mem_cons_self _ _) hw
      have hfst : firstNotWs as = true := by
        cases as with
        | nil => rfl
        | cons b r =>
          simp only [noWsRun, Bool.and_eq_true] at hrun
          have hab := hrun.1
          rw [hw] at hab
          simp only [Bool.true_and, Bool.not_eq_true', firstNotWs] at hab ⊢
          simp [hab]
      refine ⟨?_, fun hf => ?_⟩
      · simp only [collapseAux, hw, if_true, Bool.false_eq_true, if_false]
        rw [(ih hrun' hsp').2 hfst, ha]
      · rw [firstNotWs, hw] at hf
        simp at hf

theorem mem_trimEndWs {c : Char} : ∀ {l : List Char}, c ∈ trimEndWs l → c ∈ l := by
  intro l
  induction l with
  | nil => intro h; simp [trimEndWs] at h
  | cons a as ih =>
    intro h
    simp only [trimEndWs] at h
    by_cases he : (trimEndWs as).isEmpty
    · simp only [he, if_true] at h
      by_cases hw : isWs a
      · simp [hw] at h
      · simp only [hw, Bool.false_eq_true, if_false, List.mem_singleton] at h
        exact h ▸ List.mem_cons_self _ _
    · simp only [he, Bool.false_eq_true, if_false] at h
      rcases List.mem_cons.mp h with h' | h'
      · exact h' ▸ List.mem_cons_self _ _
      · exact List.mem_cons_of_mem _ (ih h')

theorem trimEndWs_cons_shape (a : Char) (l : List Char) :
    trimEndWs (a :: l) = [] ∨ ∃ r, trimEndWs (a :: l) = a :: r := by
  simp only [trimEndWs]
  by_cases he : (trimEndWs l).isEmpty
  · by_cases hw : isWs a
    · simp [he, hw]
    · exact Or.inr ⟨[], by simp [he, hw]⟩
  · exact Or.inr ⟨trimEndWs l, by simp [he]⟩

theorem lastNotWs_trimEndWs : ∀ (l : List Char), lastNotWs (trimEndWs l) = true := by
  intro l
  induction l with
  | nil => rfl
  | cons a as ih =>
    simp only [trimEndWs]
    by_cases he : (trimEndWs as).isEmpty
    · by_cases hw : isWs a
      · simp [he, hw, lastNotWs]
      · simp [he, hw, lastNotWs]
    · simp only [he, Bool.false_eq_true, if_false]
      cases hr : trimEndWs as with
      | nil => rw [hr] at he; simp at he
      | cons b r =>
        rw [hr] at ih
        simpa [lastNotWs] using ih

theorem firstNotWs_trimEndWs {l : List Char} (h : firstNotWs l = true) :
    firstNotWs (trimEndWs l) = true := by
  cases l with
  | nil => rfl
  | cons a as =>
    rcases trimEndWs_cons_shape a as with hs | ⟨r, hs⟩
    · simp [hs, firstNotWs]
    · rw [hs]
      simpa [firstNotWs] using h

theorem noWsRun_trimEndWs : ∀ {l : List Char}, noWsRun l = true →
    noWsRun (trimEndWs l) = true := by
  intro l
  induction l with
  | nil => intro _; rfl
  | cons a as ih =>
    intro hrun
    simp only [trimEndWs]
    by_cases he : (trimEndWs as).isEmpty
    · by_cases hw : isWs a
      · simp [he, hw, noWsRun]
      · simp [he, hw, noWsRun]
    · simp only [he, Bool.false_eq_true, if_false]
      have htail : noWsRun (trimEndWs as) = true := ih (noWsRun_tail hrun)
      apply noWsRun_cons_of htail
      cases as with
      | nil => simp [trimEndWs] at he
      | cons b r =>
        rcases trimEndWs_cons_shape b r with hs | ⟨r', hs⟩
        · rw [hs] at he; simp at he
        · simp only [noWsRun, Bool.and_eq_true] at hrun
          have hab := hrun.1
          rcases Bool.eq_false_or_eq_true (isWs b) with hb | hb
          · refine Or.inl ?_
            rw [hb] at hab
            rcases Bool.eq_false_or_eq_true (isWs a) with ha | ha
            · rw [ha] at hab; simp at hab
            · exact ha
          · refine Or.inr ?_
            rw [hs]
            simp [firstNotWs, hb]

theorem trimEndWs_id : ∀ {l : List Char}, lastNotWs l = true → trimEndWs l = l := by
  intro l
  induction l with
  | nil => intro _; rfl
  | cons a as ih =>
    intro h
    cases as with
    | nil =>
      simp only [lastNotWs, Bool.not_eq_true'] at h
      simp [trimEndWs, h]
    | cons b r =>
      have h' : lastNotWs (b :: r) = true := by simpa [lastNotWs] using h
      have hbr : trimEndWs (b :: r) = b :: r := ih h'
      show (if (trimEndWs (b :: r)).isEmpty then (if isWs a then [] else [a])
            else a :: trimEndWs (b :: r)) = a :: b :: r
      rw [hbr]
      simp

theorem firstNotWs_dropWhile (l : List Char) :
    firstNotWs (l.dropWhile isWs) = true := by
  induction l with
  | nil => rfl
  | cons a as ih =>
    rw [List.dropWhile_cons]
    by_cases hw : isWs a
    · simpa [hw] using ih
    · simp [hw, firstNotWs]

theorem noWsRun_dropWhile {l : List Char} (h : noWsRun l = true) :
    noWsRun (l.dropWhile isWs) = true := by
  induction l with
  | nil => exact h
  | cons a as ih =>
    rw [List.dropWhile_cons]
    by_cases hw : isWs a
    · simpa [hw] using ih (noWsRun_tail h)
    · simpa [hw] using h

theorem mem_dropWhile {c : Char} {p : Char → Bool} : ∀ {l : List Char},
    c ∈ l.dropWhile p → c ∈ l := by
  intro l
  induction l with
  | nil => intro h; simp at h
  | cons a as ih =>
    intro h
    rw [List.dropWhile_cons] at h
    by_cases hp : p a
    · simp only [hp, if_true] at h
      exact List.mem_cons_of_mem _ (ih h)
    · simpa [hp] using h

theorem dropWhile_id {l : List Char} (h : firstNotWs l = true) :
    l.dropWhile isWs = l := by
  cases l with
  | nil => rfl
  | cons a as =>
    simp only [firstNotWs, Bool.not_eq_true'] at h
    rw [List.dropWhile_cons]
    simp [h]

theorem mem_trimWs {c : Char} {l : List Char} (h : c ∈ trimWs l) : c ∈ l :=
  mem_dropWhile (mem_trimEndWs h)

theorem firstNotWs_trimWs (l : List Char) : firstNotWs (trimWs l) = true :=
  firstNotWs_trimEndWs (firstNotWs_dropWhile l)

theorem lastNotWs_trimWs (l : List Char) : lastNotWs (trimWs l) = true :=
  lastNotWs_trimEndWs _

theorem noWsRun_trimWs {l : List Char} (h : noWsRun l = true) :
    noWsRun (trimWs l) = true :=
  noWsRun_trimEndWs (noWsRun_dropWhile h)

theorem trimWs_id {l : List Char} (h1 : firstNotWs l = true)
    (h2 : lastNotWs l = true) : trimWs l = l := by
  unfold trimWs
  rw [dropWhile_id h1, trimEndWs_id h2]

/-- The canonical-form facts for the output of `trimWs (collapseWs u)`. -/
theorem trimCollapse_canon (u : List Char) :
    noWsRun (trimWs (collapseWs u)) = true ∧
    firstNotWs (trimWs (collapseWs u)) = true ∧
    lastNotWs (trimWs (collapseWs u)) = true ∧
    (∀ c ∈ trimWs (collapseWs u), isWs c = true → c = ' ') := by
  refine ⟨noWsRun_trimWs (noWsRun_collapseAux false u),
          firstNotWs_trimWs _, lastNotWs_trimWs _, ?_⟩
  intro c hc hw
  rcases mem_collapseAux (mem_trimWs hc) with h | h
  · exact h
  · rw [h.2] at hw; simp at hw

/-- `trimWs ∘ collapseWs` is the identity on canonical strings. -/
theorem trimCollapse_id {l : List Char}
    (h1 : noWsRun l = true) (h2 : firstNotWs l = true)
    (h3 : lastNotWs l = true) (h4 : ∀ c ∈ l, isWs c = true → c = ' ') :
    trimWs (collapseWs l) = l := by
  unfold collapseWs
  rw [(collapseAux_id l h1 h4).1, trimWs_id h2 h3]

/- ### Lemmas about finite character substitutions -/

theorem applyMap_eq_self {m : List (Char × Char)} {c : Char}
    (h : ∀ p ∈ m, p.1 ≠ c) : applyMap m c = c := by
  unfold applyMap
  rw [List.find?_eq_none.mpr (by intro p hp; simpa using h p hp)]

theorem applyMap_cases (m : List (Char × Char)) (c : Char) :
    applyMap m c = c ∨ ∃ p ∈ m, p.1 = c ∧ applyMap m c = p.2 := by
  unfold applyMap
  cases hf : m.find? (fun p => p.1 = c) with
  | none => exact Or.inl rfl
  | some p =>
    refine Or.inr ⟨p, List.mem_of_find?_eq_some hf, ?_, rfl⟩
    simpa using List.find?_some hf

theorem jsLower_jsLower (c : Char) : jsLower (jsLower c) = jsLower c := by
  show applyMap lowerPairs (applyMap lowerPairs c) = applyMap lowerPairs c
  rcases applyMap_cases lowerPairs c with h | ⟨p, hp, _, h⟩
  · rw [h]; exact h
  · rw [h]
    refine applyMap_eq_self ?_
    intro q hq
    have hnot : ∀ q ∈ lowerPairs, ∀ p ∈ lowerPairs, q.1 ≠ p.2 := by decide
    exact hnot q hq p hp


theorem applyMapSplit (m : List (Char × Char)) (c : Char) :
    ((∀ p ∈ m, p.1 ≠ c) ∧ applyMap m c = c) ∨
    ∃ p ∈ m, p.1 = c ∧ applyMap m c = p.2 := by
  unfold applyMap
  cases hf : m.find? (fun p => p.1 = c) with
  | none =>
    refine Or.inl ⟨?_, rfl⟩
    intro p hp
    simpa using List.find?_eq_none.mp hf p hp
  | some p =>
    exact Or.inr ⟨p, List.mem_of_find?_eq_some hf,
      by simpa using List.find?_some hf, rfl⟩

theorem map_id_of_fix {f : Char → Char} {l : List Char}
    (h : ∀ c ∈ l, f c = c) : l.map f = l := by
  conv_rhs => rw [← List.map_id l]
  exact List.map_congr_left h

/- ### Idempotence of the trailing-trim normalizers (claim C2) -/

/-- Every character of a `keNormalizeText` output is fixed by each of its
character-level stages. -/
theorem keNorm_chars {s : List Char} {c : Char} (hc : c ∈ keNormalizeText s) :
    jsLower c = c ∧ isZw c = false ∧ imPunct c = c := by
  rcases mem_collapseAux (mem_trimWs hc) with hsp | ⟨hmem, hnw⟩
  · subst hsp
    refine ⟨by decide, by decide, by decide⟩
  · rcases List.mem_map.mp hmem with ⟨z, hz, hzc⟩
    rcases List.mem_filter.mp hz with ⟨hz', hzw⟩
    rcases List.mem_map.mp hz' with ⟨y, _, hy⟩
    rw [imPunct] at hzc
    by_cases hck : (uL z || uN z || isWs z) = true
    · rw [if_pos hck] at hzc
      subst hzc
      refine ⟨?_, by simpa using hzw, ?_⟩
      · rw [← hy]; exact jsLower_jsLower y
      · rw [imPunct, if_pos hck]
    · rw [if_neg hck] at hzc
      rw [← hzc] at hnw
      simp [isWs] at hnw

theorem keNormalizeText_idem (s : List Char) :
    keNormalizeText (keNormalizeText s) = keNormalizeText s := by
  have hfix := fun c hc => keNorm_chars (s := s) (c := c) hc
  have h1 : (keNormalizeText s).map jsLower = keNormalizeText s :=
    map_id_of_fix (fun c hc => (hfix c hc).1)
  have h2 : ((keNormalizeText s).filter (fun c => !isZw c)) = keNormalizeText s :=
    List.filter_eq_self.mpr (fun c hc => by simp [(hfix c hc).2.1])
  have h3 : (keNormalizeText s).map imPunct = keNormalizeText s :=
    map_id_of_fix (fun c hc => (hfix c hc).2.2)
  show trimWs (collapseWs ((((keNormalizeText s).map jsLower).filter
      (fun c => !isZw c)).map imPunct)) = keNormalizeText s
  rw [h1, h2, h3]
  rcases trimCollapse_canon (((s.map jsLower).filter (fun c => !isZw c)).map imPunct)
    with ⟨hr, hf, hl, ha⟩
  exact trimCollapse_id hr hf hl ha

/-- Every character of a `v3Normalize` output is fixed by each of its
character-level stages. -/
theorem v3Norm_chars {s : List Char} {c : Char} (hc : c ∈ v3Normalize s) :
    applyMap v3FoldPairs c = c ∧ jsLower c = c ∧ v3Punct c = c ∧ dashSp c = c := by
  rcases mem_collapseAux (mem_trimWs hc) with hsp | ⟨hmem, hnw⟩
  · subst hsp
    refine ⟨by decide, by decide, by decide, by decide⟩
  · rcases List.mem_map.mp hmem with ⟨w, hw, hwc⟩
    rcases List.mem_map.mp hw with ⟨v, hv, hvw⟩
    rcases List.mem_map.mp hv with ⟨u, hu, huv⟩
    rcases List.mem_map.mp hu with ⟨y, _, hyu⟩
    rw [dashSp] at hwc
    by_cases hdw : (w = '-' || w = '/' || w = '_') = true
    · rw [if_pos hdw] at hwc
      rw [← hwc] at hnw
      simp [isWs] at hnw
    · rw [if_neg hdw] at hwc
      rw [v3Punct] at hvw
      by_cases hkv : keepV3 v = true
      · rw [if_pos hkv] at hvw
        have hvc : v = c := hvw.trans hwc
        have hcu : jsLower u = c := huv.trans hvc
        have hcl : jsLower c = c := by rw [← hcu]; exact jsLower_jsLower u
        have hcf : applyMap v3FoldPairs c = c := by
          refine applyMap_eq_self ?_
          intro q hq
          rcases applyMapSplit v3FoldPairs y with ⟨hns, hyy⟩ | ⟨p, hp, _, hyy⟩
          · have huy : u = y := (hyy.symm.trans hyu).symm
            rcases applyMapSplit lowerPairs y with ⟨_, hly⟩ | ⟨r, hr, _, hly⟩
            · have : c = y := by rw [← hcu, huy]; exact hly
              rw [this]
              exact hns q hq
            · have : c = r.2 := by rw [← hcu, huy]; exact hly
              rw [this]
              have hdist : ∀ r ∈ lowerPairs, ∀ q ∈ v3FoldPairs, q.1 ≠ r.2 := by decide
              exact hdist r hr q hq
          · have hup : u = p.2 := hyy.symm.trans hyu |>.symm
            have hfix2 : ∀ p ∈ v3FoldPairs, jsLower p.2 = p.2 := by decide
            have : c = p.2 := by rw [← hcu, hup]; exact hfix2 p hp
            rw [this]
            have hdist2 : ∀ p ∈ v3FoldPairs, ∀ q ∈ v3FoldPairs, q.1 ≠ p.2 := by decide
            exact hdist2 p hp q hq
        refine ⟨hcf, hcl, ?_, ?_⟩
        · rw [v3Punct, if_pos (hvc ▸ hkv)]
        · rw [dashSp, if_neg (hwc ▸ hdw)]
      · rw [if_neg hkv] at hvw
        rw [← (hvw.trans hwc)] at hnw
        simp [isWs] at hnw

theorem v3Normalize_idem (s : List Char) :
    v3Normalize (v3Normalize s) = v3Normalize s := by
  have hfix := fun c hc => v3Norm_chars (s := s) (c := c) hc
  have h1 : (v3Normalize s).map (applyMap v3FoldPairs) = v3Normalize s :=
    map_id_of_fix (fun c hc => (hfix c hc).1)
  have h2 : (v3Normalize s).map jsLower = v3Normalize s :=
    map_id_of_fix (fun c hc => (hfix c hc).2.1)
  have h3 : (v3Normalize s).map v3Punct = v3Normalize s :=
    map_id_of_fix (fun c hc => (hfix c hc).2.2.1)
  have h4 : (v3Normalize s).map dashSp = v3Normalize s :=
    map_id_of_fix (fun c hc => (hfix c hc).2.2.2)
  show trimWs (collapseWs (((((v3Normalize s).map (applyMap v3FoldPairs)).map
      jsLower).map v3Punct).map dashSp)) = v3Normalize s
  rw [h1, h2, h3, h4]
  rcases trimCollapse_canon ((((s.map (applyMap v3FoldPairs)).map jsLower).map
      v3Punct).map dashSp) with ⟨hr, hf, hl, ha⟩
  exact trimCollapse_id hr hf hl ha

/- ### Generic bound lemmas for fold-based sums and maxima -/

theorem tokContrib_bounds (tt : List (List Char)) (kt : List Char) :
    0 ≤ tokContrib tt kt ∧ tokContrib tt kt ≤ 1 := by
  unfold tokContrib
  split_ifs <;> norm_num

theorem hitCountII_foldl_bounds (tt : List (List Char)) :
    ∀ (ats : List (List Char)) (acc : ℚ),
      acc ≤ ats.foldl (fun h kt => h + tokContrib tt kt) acc ∧
      ats.foldl (fun h kt => h + tokContrib tt kt) acc ≤ acc + ats.length := by
  intro ats
  induction ats with
  | nil => intro acc; simp
  | cons a as ih =>
    intro acc
    have hb := tokContrib_bounds tt a
    constructor
    · calc acc ≤ acc + tokContrib tt a := by linarith [hb.1]
        _ ≤ _ := (ih (acc + tokContrib tt a)).1
    · calc (a :: as).foldl (fun h kt => h + tokContrib tt kt) acc
          ≤ (acc + tokContrib tt a) + as.length := (ih (acc + tokContrib tt a)).2
        _ ≤ acc + (a :: as).length := by
            simp only [List.length_cons]
            push_cast
            linarith [hb.2]

theorem hitCountII_bounds (tt ats : List (List Char)) :
    0 ≤ hitCountII tt ats ∧ hitCountII tt ats ≤ ats.length := by
  have h := hitCountII_foldl_bounds tt ats 0
  unfold hitCountII
  constructor
  · simpa using h.1
  · simpa using h.2

theorem tokenRatioII_bounds (tt : List (List Char)) (al : List Char) :
    0 ≤ tokenRatioII tt al ∧ tokenRatioII tt al ≤ 1 := by
  unfold tokenRatioII
  by_cases h : (aliasTokensOf al).length = 0
  · simp [h]
  · have hpos : (0:ℚ) < ((aliasTokensOf al).length : ℚ) := by
      have : 0 < (aliasTokensOf al).length := Nat.pos_of_ne_zero h
      exact_mod_cast this
    have hb := hitCountII_bounds tt (aliasTokensOf al)
    simp only [h, if_false]
    constructor
    · exact div_nonneg hb.1 hpos.le
    · rw [div_le_one hpos]
      exact hb.2

theorem levSim_nonneg (a b : List Char) : 0 ≤ levSim a b := by
  simp only [levSim]
  split_ifs <;> [norm_num; exact le_max_left _ _]

theorem levSim_le_one (a b : List Char) : levSim a b ≤ 1 := by
  simp only [levSim]
  split_ifs with h
  · exact le_refl 1
  · refine max_le (by norm_num) ?_
    have hm : (0:ℚ) < ((max a.length b.length : Nat) : ℚ) := by
      exact_mod_cast Nat.pos_of_ne_zero h
    have hd : 0 ≤ (levenshtein a b : ℚ) / ((max a.length b.length : Nat) : ℚ) :=
      div_nonneg (by positivity) hm.le
    linarith

theorem bestSimII_le_one (a : List Char) (tt : List (List Char)) :
    bestSimII a tt ≤ 1 := by
  unfold bestSimII
  have : ∀ (l : List (List Char)) (acc : ℚ), acc ≤ 1 →
      l.foldl (fun b x => max b (levSim a x)) acc ≤ 1 := by
    intro l
    induction l with
    | nil => intro acc h; simpa using h
    | cons x xs ih =>
      intro acc h
      exact ih _ (max_le h (levSim_le_one a x))
  exact this tt 0 (by norm_num)

theorem foldl_max_init_le (a : List Char) :
    ∀ (l : List (List Char)) (acc : ℚ),
      acc ≤ l.foldl (fun b x => max b (levSim a x)) acc := by
  intro l
  induction l with
  | nil => intro acc; simp
  | cons x xs ih =>
    intro acc
    exact le_trans (le_max_left _ _) (ih (max acc (levSim a x)))

theorem le_bestSimII_aux (a : List Char) :
    ∀ (l : List (List Char)) (acc : ℚ) (tk : List Char), tk ∈ l →
      levSim a tk ≤ l.foldl (fun b x => max b (levSim a x)) acc := by
  intro l
  induction l with
  | nil => intro acc tk h; simp at h
  | cons x xs ih =>
    intro acc tk h
    rcases List.mem_cons.mp h with h1 | h1
    · subst h1
      exact le_trans (le_max_right _ _) (foldl_max_init_le a xs _)
    · exact ih _ tk h1

theorem le_bestSimII {a tk : List Char} {tt : List (List Char)} (h : tk ∈ tt) :
    levSim a tk ≤ bestSimII a tt :=
  le_bestSimII_aux a tt 0 tk h

/- ### Claim C1 -/

/-- C1 (corrected): a failed KnowledgeEngine load resolves to the empty,
consistent state.  For a non-empty path and a failing fetch/parse, `init`
returns `kb = []`, `indexInitialized = false` and reports the failure —
regardless of any previously loaded catalog, which is cleared rather than
retained — so the engine is never partially loaded. -/
theorem c1_failed_init_resets_store (st : KEState) (kbPath e : List Char)
    (h : kbPath ≠ []) :
    keInit st kbPath (Except.error e) =
      (⟨[], false⟩, KEInitRes.failErr) := by
  simp [keInit, h]

theorem c1_witness :
    keInit ⟨[⟨['a'], ['t'], [], [], [], []⟩], true⟩ ['p'] (Except.error ['x']) =
      (⟨[], false⟩, KEInitRes.failErr) :=
  c1_failed_init_resets_store ⟨[⟨['a'], ['t'], [], [], [], []⟩], true⟩ ['p'] ['x']
    (by decide)

/-- C1 counterexample: after a successful init (one entry loaded), a second
init whose fetch fails leaves the store empty — the previously loaded entry
is not retained and is no longer queryable. -/
theorem c1_counterexample :
    (keInit ⟨[], false⟩ ['p'] (Except.ok
      [⟨some ['k'], none, some ['t'], none, none, none, none, none, none,
        none, none, none, some [['t']]⟩])).1.kb ≠ [] ∧
    (keInit (keInit ⟨[], false⟩ ['p'] (Except.ok
      [⟨some ['k'], none, some ['t'], none, none, none, none, none, none,
        none, none, none, some [['t']]⟩])).1 ['p'] (Except.error ['x'])).1.kb
      = [] := by
  refine ⟨by decide, by decide⟩

/- ### Claim C2 -/

/-- C2 (corrected): idempotence holds for KnowledgeEngine.normalizeText and
IndustryIndexer v3.0's normalizeText (which trim at the end); it fails for
IntentMatcher.normalizeFa and the second IndustryIndexer's normalize, which
trim only at the start, so trailing punctuation leaves a trailing space that
only a second application removes. -/
theorem c2_normalizers_idempotent :
    (∀ s : List Char, keNormalizeText (keNormalizeText s) = keNormalizeText s) ∧
    (∀ s : List Char, v3Normalize (v3Normalize s) = v3Normalize s) :=
  ⟨keNormalizeText_idem, v3Normalize_idem⟩

/-- C2 counterexample: `normalizeFa "ab!" = "ab "` but a second application
gives `"ab"`; the same happens for the second IndustryIndexer's normalize. -/
theorem c2_counterexample :
    imNormalizeFa (imNormalizeFa ['a', 'b', '!']) ≠ imNormalizeFa ['a', 'b', '!'] ∧
    iiNormalize (iiNormalize ['a', 'b', '!']) ≠ iiNormalize ['a', 'b', '!'] := by
  refine ⟨by decide, by decide⟩

/- ### Claim C5 -/

/-- C5 (corrected): in the second IndustryIndexer's scoreAgainstAlias, each
alias token contributes 1 (exact token match), 0.9 (alias token of length ≥ 3
occurring as a substring of some query token — that direction only), or 0,
and the sum divided by the alias token count lies in [0,1].  (IntentMatcher's
scoreForTextAgainstList, also cited by the claim, instead contributes 0.6 per
substring-matched keyword and never divides — see the counterexample.) -/
theorem c5_token_overlap_contributions (tt : List (List Char)) (al : List Char) :
    (∀ kt ∈ aliasTokensOf al,
      tokContrib tt kt = 1 ∨ tokContrib tt kt = 9/10 ∨ tokContrib tt kt = 0) ∧
    (∀ kt ∈ aliasTokensOf al, tt.contains kt = true → tokContrib tt kt = 1) ∧
    (∀ kt ∈ aliasTokensOf al, tt.contains kt = false → 3 ≤ kt.length →
      (∃ t ∈ tt, containsSeg kt t = true) → tokContrib tt kt = 9/10) ∧
    0 ≤ tokenRatioII tt al ∧ tokenRatioII tt al ≤ 1 := by
  refine ⟨?_, ?_, ?_, (tokenRatioII_bounds tt al).1, (tokenRatioII_bounds tt al).2⟩
  · intro kt _
    unfold tokContrib
    split_ifs <;> simp
  · intro kt _ hmem
    unfold tokContrib
    rw [if_pos hmem]
  · intro kt _ hmem hlen ⟨t, ht, hseg⟩
    unfold tokContrib
    rw [if_neg (by rw [hmem]; exact Bool.false_ne_true),
        if_pos (List.any_eq_true.mpr ⟨t, ht, by rw [hseg]; simpa using hlen⟩)]

theorem c5_witness :
    (tokContrib [['a','b','c']] ['a','b','c'] = 1 ∨
     tokContrib [['a','b','c']] ['a','b','c'] = 9/10 ∨
     tokContrib [['a','b','c']] ['a','b','c'] = 0) ∧
    tokContrib [['a','b','c','d']] ['a','b','c'] = 9/10 ∧
    0 ≤ tokenRatioII [['a','b','c']] ['a','b','c'] := by
  refine ⟨(c5_token_overlap_contributions [['a','b','c']] ['a','b','c']).1
      ['a','b','c'] (by decide), ?_, ?_⟩
  · exact (c5_token_overlap_contributions [['a','b','c','d']] ['a','b','c']).2.2.1
      ['a','b','c'] (by decide) (by decide) (by decide)
      ⟨['a','b','c','d'], by decide, by decide⟩
  · exact (c5_token_overlap_contributions [['a','b','c']] ['a','b','c']).2.2.2.1

/-- C5 counterexample: IntentMatcher's scoreForTextAgainstList gives a
substring-matched single-token keyword 0.6, outside the claimed [0.8, 0.9],
and performs no division by the keyword's token count. -/
theorem c5_counterexample :
    scoreForTextAgainstList [['a','b','c','d','e','f']] [['a','b','c']] = 3/5 ∧
    ¬(4/5 ≤ (3:ℚ)/5 ∧ (3:ℚ)/5 ≤ 9/10) := by
  refine ⟨by decide, by norm_num⟩

/- ### Claim C8 -/

/-- C8 (corrected): only IndustryIndexer v3.0's tokensOf drops tokens shorter
than 2 characters; KnowledgeEngine.tokenize, IntentMatcher.tokenSet and the
second IndustryIndexer's tokensOf drop only empty tokens. -/
theorem c8_tokenizers :
    (∀ s t, t ∈ v3TokensOf s → 2 ≤ t.length) ∧
    (∀ s t, t ∈ keTokenize s → t ≠ []) ∧
    (∀ s t, t ∈ imTokenSet s → t ≠ []) ∧
    (∀ s t, t ∈ iiTokensOf s → t ≠ []) := by
  refine ⟨?_, ?_, ?_, ?_⟩
  · intro s t ht
    have := (List.mem_filter.mp ht).2
    simp only [Bool.and_eq_true, decide_eq_true_eq] at this
    exact this.2
  · intro s t ht
    unfold keTokenize at ht
    by_cases h : keNormalizeText s = []
    · simp [h] at ht
    · simp only [h, if_false] at ht
      have := (List.mem_filter.mp ht).2
      simpa using this
  · intro s t ht
    have := (List.mem_filter.mp ht).2
    simpa using this
  · intro s t ht
    have := (List.mem_filter.mp ht).2
    simpa using this

theorem c8_witness :
    2 ≤ (['a','b'] : List Char).length ∧ (['a'] : List Char) ≠ [] := by
  refine ⟨(c8_tokenizers).1 ['a','b'] ['a','b'] (by decide), ?_⟩
  exact (c8_tokenizers).2.1 ['a'] ['a'] (by decide)

/-- C8 counterexample: KnowledgeEngine.tokenize returns the length-1 token
`"a"` for the input `"a b"`. -/
theorem c8_counterexample :
    ['a'] ∈ keTokenize ['a', ' ', 'b'] ∧ (['a'] : List Char).length < 2 := by
  refine ⟨by decide, by decide⟩

/- ### Claim C9 -/

/-- C9 (corrected): an empty raw query returns an empty result from
KnowledgeEngine.query, and a query that normalizes to empty returns null from
IndustryIndexer v3.0's bestMatch, both without error.  KnowledgeEngine.query,
however, tests only the raw string, and a non-empty query normalizing to
empty can still score candidates above zero through the raw-text LCS signal
(see the counterexample). -/
theorem c9_empty_query :
    (∀ kb topN, keQuery kb [] topN = []) ∧
    (∀ l raw thr, v3Normalize raw = [] → bestMatchV3 l raw thr = none) := by
  constructor
  · intro kb topN
    simp [keQuery]
  · intro l raw thr h
    simp [bestMatchV3, h]

theorem c9_witness :
    keQuery [] [] 6 = [] ∧ bestMatchV3 [] ['!'] (1/4) = none :=
  ⟨(c9_empty_query).1 [] 6, (c9_empty_query).2 [] ['!'] (1/4) (by decide)⟩

/-- C9 counterexample: the query `"!!!"` normalizes to empty, yet over a
store holding an entry titled `"!!!"` KnowledgeEngine.query scores that
candidate 0.35 > 0 (through the raw-text LCS signal) and returns it. -/
theorem c9_counterexample :
    keNormalizeText ['!', '!', '!'] = [] ∧
    keQuery [⟨['k', '1'], ['!', '!', '!'], [], [], [], []⟩] ['!', '!', '!'] 6 =
      [⟨['k', '1'], ['!', '!', '!'], [], [], [], 7/20, KEComps.sig 0 1 0⟩] ∧
    (0:ℚ) < 7/20 := by
  refine ⟨by decide, by decide, by norm_num⟩

/- ### Claim C3 -/

/-- C3 (corrected): in the second IndustryIndexer, an alias occurring as a
contiguous substring of the space-joined token text (the whitespace-trimmed
normalized query) scores exactly 1.0 via the phrase branch, while an alias
with no phrase match and no token hits — i.e. matched solely through the
edit-distance fuzzy signal — scores at most 0.9, so phrase containment
outranks solely-fuzzy matches.  (The claim's premise over the raw normalized
query text fails when a normalized alias carries an edge space — see the
counterexample.) -/
theorem c3_phrase_containment (tt : List (List Char)) (al : List Char) :
    (containsSeg al (joinSp tt) = true →
      (scoreAgainstAlias tt (joinSp tt) al).1 = 1) ∧
    (∀ jt, containsSeg al jt = false →
      hitCountII tt (aliasTokensOf al) = 0 →
      (scoreAgainstAlias tt jt al).1 ≤ 9/10) := by
  constructor
  · intro h
    unfold scoreAgainstAlias
    rw [if_pos h]
  · intro jt hni hhit
    unfold scoreAgainstAlias
    rw [if_neg (by rw [hni]; exact Bool.false_ne_true)]
    simp only [hhit]
    rcases hata : aliasTokensOf al with _ | ⟨a, rest⟩
    · dsimp only
      norm_num
    · rcases rest with _ | ⟨b, rest2⟩
      · dsimp only
        have hb1 := bestSimII_le_one a tt
        split_ifs <;>
          first
            | refine max_le (by norm_num) (by nlinarith)
            | exact le_trans (min_le_right _ _) (by norm_num)
      · dsimp only
        split_ifs <;> exact le_trans (min_le_right _ _) (by norm_num)

theorem c3_witness :
    (scoreAgainstAlias [['a','b']] (joinSp [['a','b']]) ['a','b']).1 = 1 ∧
    (scoreAgainstAlias [['q','q']] ['q','q'] ['a','b','c']).1 ≤ 9/10 :=
  ⟨(c3_phrase_containment [['a','b']] ['a','b']).1 (by decide),
   (c3_phrase_containment [['q','q']] ['a','b','c']).2 ['q','q'] (by decide)
     (by decide)⟩

/-- C3 counterexample: the raw alias `"ab cd!"` normalizes to `"ab cd "`
(trailing space), which occurs contiguously in the normalized query of
`"zz ab cd!"`; yet scoreAgainstIndustry scores that entity 0.85, not the
claimed maximal 1.0, because the joined token text has no trailing space. -/
theorem c3_counterexample :
    containsSeg (iiNormalize ['a','b',' ','c','d','!'])
      (iiNormalize ['z','z',' ','a','b',' ','c','d','!']) = true ∧
    (scoreAgainstIndustry
      (buildIndexII [(['i','1'], [['a','b',' ','c','d','!']])])
      ['z','z',' ','a','b',' ','c','d','!']).score = 17/20 ∧
    ((17:ℚ)/20 ≠ 1) := by
  refine ⟨by decide, by decide, by norm_num⟩

/- ### Claim C7 -/

/-- C7 (confirmed): for a single-token alias with no phrase match in the
joined text, levSim is `1 - distance / max(len)`; a query token at
levenshtein distance 1 from the alias token of length ≥ 5 gives similarity
≥ 0.8 ≥ 0.75, so scoreAgainstAlias takes the fuzzy branch and returns the
fuzzy reason with a score of at least 0.72, above the matcher's reporting
floor MIN_SCORE. -/
theorem c7_fuzzy_resolution (tt : List (List Char)) (jt al a tk : List Char)
    (hats : aliasTokensOf al = [a])
    (hni : containsSeg al jt = false)
    (htk : tk ∈ tt)
    (hlev : levenshtein a tk = 1)
    (hlen : 5 ≤ a.length) :
    levSim a tk = 1 - 1 / ((max a.length tk.length : Nat) : ℚ) ∧
    ∃ q, scoreAgainstAlias tt jt al = (q, IIReason.fuzzy a) ∧
      18/25 ≤ q ∧ MIN_SCORE ≤ q := by
  have hm5 : 5 ≤ max a.length tk.length := le_trans hlen (Nat.le_max_left _ _)
  have hmq : (5:ℚ) ≤ ((max a.length tk.length : Nat) : ℚ) := by exact_mod_cast hm5
  have hsim : levSim a tk = 1 - 1 / ((max a.length tk.length : Nat) : ℚ) := by
    simp only [levSim]
    rw [if_neg (by omega), hlev]
    rw [max_eq_right]
    · norm_num
    · have h1 : 1 / ((max a.length tk.length : Nat) : ℚ) ≤ 1/5 := by
        rw [div_le_div_iff (by linarith) (by norm_num)]
        linarith
      linarith
  have hsim45 : 4/5 ≤ levSim a tk := by
    rw [hsim]
    have h1 : 1 / ((max a.length tk.length : Nat) : ℚ) ≤ 1/5 := by
      rw [div_le_div_iff (by linarith) (by norm_num)]
      linarith
    linarith
  have hbs : 4/5 ≤ bestSimII a tt := le_trans hsim45 (le_bestSimII htk)
  refine ⟨hsim, ?_⟩
  unfold scoreAgainstAlias
  rw [if_neg (by rw [hni]; exact Bool.false_ne_true)]
  simp only [hats]
  rw [if_pos (by linarith : (3:ℚ)/4 ≤ bestSimII a tt)]
  refine ⟨_, rfl, ?_, ?_⟩
  · have : (4:ℚ)/5 * (9/10) ≤ bestSimII a tt * (9/10) := by nlinarith
    calc (18:ℚ)/25 = 4/5 * (9/10) := by norm_num
      _ ≤ bestSimII a tt * (9/10) := this
      _ ≤ max _ (bestSimII a tt * (9/10)) := le_max_right _ _
  · have : (4:ℚ)/5 * (9/10) ≤ bestSimII a tt * (9/10) := by nlinarith
    have h2 : MIN_SCORE ≤ (4:ℚ)/5 * (9/10) := by norm_num [MIN_SCORE]
    calc MIN_SCORE ≤ bestSimII a tt * (9/10) := by linarith
      _ ≤ max _ (bestSimII a tt * (9/10)) := le_max_right _ _

theorem c7_witness :
    levSim ['a','b','c','d','e'] ['a','b','c','d','x'] =
      1 - 1 / ((max (['a','b','c','d','e'] : List Char).length
        (['a','b','c','d','x'] : List Char).length : Nat) : ℚ) ∧
    ∃ q, scoreAgainstAlias [['a','b','c','d','x']] ['a','b','c','d','x']
        ['a','b','c','d','e'] = (q, IIReason.fuzzy ['a','b','c','d','e']) ∧
      18/25 ≤ q ∧ MIN_SCORE ≤ q :=
  c7_fuzzy_resolution [['a','b','c','d','x']] ['a','b','c','d','x']
    ['a','b','c','d','e'] ['a','b','c','d','e'] ['a','b','c','d','x']
    (by decide) (by decide) (by decide) (by decide) (by decide)

/- ### Claim C6 -/

theorem trimEndWs_cons (a : Char) (l : List Char) :
    trimEndWs (a :: l) =
      if (trimEndWs l).isEmpty then (if isWs a then [] else [a])
      else a :: trimEndWs l := rfl

theorem isWs_applyMap_dig (c : Char) :
    isWs (applyMap iiDigitPairs c) = isWs c := by
  rcases applyMapSplit iiDigitPairs c with ⟨_, hc⟩ | ⟨p, hp, hpc, hc⟩
  · rw [hc]
  · rw [hc, ← hpc]
    exact (by decide : ∀ p ∈ iiDigitPairs, isWs p.2 = isWs p.1) p hp

theorem dropWhile_map_comm {f : Char → Char} (hf : ∀ c, isWs (f c) = isWs c) :
    ∀ l : List Char, (l.map f).dropWhile isWs = (l.dropWhile isWs).map f := by
  intro l
  induction l with
  | nil => rfl
  | cons a as ih =>
    simp only [List.map_cons, List.dropWhile_cons, hf a]
    by_cases hw : isWs a
    · simp [hw, ih]
    · simp [hw]

theorem trimEndWs_map_comm {f : Char → Char} (hf : ∀ c, isWs (f c) = isWs c) :
    ∀ l : List Char, trimEndWs (l.map f) = (trimEndWs l).map f := by
  intro l
  induction l with
  | nil => rfl
  | cons a as ih =>
    rw [List.map_cons, trimEndWs_cons, trimEndWs_cons, ih, hf a]
    have he : ((trimEndWs as).map f).isEmpty = (trimEndWs as).isEmpty := by
      cases trimEndWs as <;> rfl
    rw [he]
    by_cases h : (trimEndWs as).isEmpty
    · by_cases hw : isWs a <;> simp [h, hw]
    · simp [h]

theorem trimWs_map_comm {f : Char → Char} (hf : ∀ c, isWs (f c) = isWs c)
    (l : List Char) : trimWs (l.map f) = (trimWs l).map f := by
  unfold trimWs
  rw [dropWhile_map_comm hf, trimEndWs_map_comm hf]

theorem isEasternDigit_eq_false_of {c : Char}
    (h : ∀ p ∈ iiDigitPairs, p.1 ≠ c) : isEasternDigit c = false := by
  rcases Bool.eq_false_or_eq_true (isEasternDigit c) with he | he
  · exfalso
    rcases List.any_eq_true.mp he with ⟨p, hp, hpe⟩
    exact h p hp (by simpa using hpe)
  · exact he


theorem applyMap_idem_of {m : List (Char × Char)}
    (h : ∀ p ∈ m, ∀ q ∈ m, q.1 ≠ p.2) (c : Char) :
    applyMap m (applyMap m c) = applyMap m c := by
  rcases applyMapSplit m c with ⟨_, hc⟩ | ⟨p, hp, _, hc⟩
  · rw [hc, hc]
  · rw [hc]
    exact applyMap_eq_self (fun q hq => h p hp q hq)

theorem applyMap_comm_of {m1 m2 : List (Char × Char)}
    (hsrc : ∀ p ∈ m1, ∀ q ∈ m2, q.1 ≠ p.1)
    (ht1 : ∀ p ∈ m1, applyMap m2 p.2 = p.2)
    (ht2 : ∀ q ∈ m2, applyMap m1 q.2 = q.2) (c : Char) :
    applyMap m2 (applyMap m1 c) = applyMap m1 (applyMap m2 c) := by
  rcases applyMapSplit m1 c with ⟨hn1, h1⟩ | ⟨p, hp, hpc, h1⟩
  · rcases applyMapSplit m2 c with ⟨hn2, h2⟩ | ⟨q, hq, hqc, h2⟩
    · rw [h1, h2, h1]
    · rw [h1, h2, ht2 q hq]
  · have h2 : applyMap m2 c = c :=
      applyMap_eq_self (fun q hq => hpc ▸ hsrc p hp q hq)
    rw [h1, ht1 p hp, h2, h1]

theorem dig_lower_comm (c : Char) :
    jsLower (applyMap iiDigitPairs c) = applyMap iiDigitPairs (jsLower c) :=
  applyMap_comm_of (by decide) (by decide) (by decide) c

theorem dig_yk_comm (c : Char) :
    applyMap ykPairs (applyMap iiDigitPairs c) =
      applyMap iiDigitPairs (applyMap ykPairs c) :=
  applyMap_comm_of (by decide) (by decide) (by decide) c

theorem dig_idem (c : Char) :
    applyMap iiDigitPairs (applyMap iiDigitPairs c) = applyMap iiDigitPairs c :=
  applyMap_idem_of (by decide) c


theorem map_map_comm {f g : Char → Char}
    (h : ∀ c, g (f c) = f (g c)) (l : List Char) :
    (l.map f).map g = (l.map g).map f := by
  induction l with
  | nil => rfl
  | cons a as ih => simp only [List.map_cons, h a, ih]

theorem map_map_idem {f : Char → Char} (h : ∀ c, f (f c) = f c) (l : List Char) :
    (l.map f).map f = l.map f := by
  induction l with
  | nil => rfl
  | cons a as ih => simp only [List.map_cons, h a, ih]

/-- C6 (corrected): only the second IndustryIndexer's normalize folds the
Eastern Arabic-Indic digits to the corresponding ASCII digits: its digit fold
maps `۰+k` to `0+k` for every k < 10, the normalization result is invariant
under pre-folding the digits, and no Eastern digit survives into its output.
(KnowledgeEngine.normalizeText and IndustryIndexer v3.0's normalizeText leave
the digits unchanged, and IntentMatcher.normalizeFa garbles `۱-۹` into
punctuation that is then stripped — see the counterexample.) -/
theorem c6_digit_folding :
    (∀ k, k < 10 → applyMap iiDigitPairs (easternDigit k) = asciiDigit k) ∧
    (∀ s : List Char,
      iiNormalize (s.map (applyMap iiDigitPairs)) = iiNormalize s) ∧
    (∀ (s : List Char) (c : Char), c ∈ iiNormalize s →
      isEasternDigit c = false) := by
  refine ⟨?_, ?_, ?_⟩
  · intro k hk
    interval_cases k <;> decide
  · intro s
    unfold iiNormalize
    rw [trimWs_map_comm isWs_applyMap_dig]
    rw [map_map_comm dig_lower_comm (trimWs s),
        map_map_comm dig_yk_comm ((trimWs s).map jsLower),
        map_map_idem dig_idem (((trimWs s).map jsLower).map (applyMap ykPairs))]
  · intro s c hc
    rcases mem_collapseAux hc with hsp | ⟨hmem, _⟩
    · subst hsp; decide
    · rcases List.mem_map.mp hmem with ⟨z, hz, hzc⟩
      rcases List.mem_map.mp hz with ⟨w, _, hwz⟩
      have hznot : isEasternDigit z = false := by
        rcases applyMapSplit iiDigitPairs w with ⟨hns, hw⟩ | ⟨p, hp, _, hw⟩
        · rw [hwz] at hw
          exact isEasternDigit_eq_false_of (hw ▸ hns)
        · rw [hwz] at hw
          rw [hw]
          exact (by decide : ∀ p ∈ iiDigitPairs, isEasternDigit p.2 = false) p hp
      rw [imPunct] at hzc
      by_cases hk : (uL z || uN z || isWs z) = true
      · rw [if_pos hk] at hzc
        rw [← hzc]
        exact hznot
      · rw [if_neg hk] at hzc
        rw [← hzc]
        decide

theorem c6_witness :
    applyMap iiDigitPairs (easternDigit 5) = asciiDigit 5 ∧
    iiNormalize (['۵'].map (applyMap iiDigitPairs)) = iiNormalize ['۵'] ∧
    isEasternDigit '5' = false :=
  ⟨(c6_digit_folding).1 5 (by norm_num), (c6_digit_folding).2.1 ['۵'],
   (c6_digit_folding).2.2 ['۵'] '5' (by decide)⟩

/-- C6 counterexample: on the single Eastern digit `۵`, normalizeFa produces
a space (its digit fold has the subtraction reversed: `۵` becomes `+`, then
punctuation stripping turns it into a space), while KnowledgeEngine's and
v3.0's normalizers leave `۵` unchanged; only the second IndustryIndexer's
normalize maps it to `5`. -/
theorem c6_counterexample :
    imNormalizeFa ['۵'] = [' '] ∧
    keNormalizeText ['۵'] = ['۵'] ∧
    v3Normalize ['۵'] = ['۵'] ∧
    iiNormalize ['۵'] = ['5'] := by
  refine ⟨by decide, by decide, by decide, by decide⟩

/- ### Claim C10 -/

theorem pmHazardStage_ge (prod : PMProd) (qHaz : List Char)
    (s : ℚ × List PMReason) : s.1 ≤ (pmHazardStage prod qHaz s).1 := by
  unfold pmHazardStage
  split_ifs
  · exact le_refl _
  · dsimp only; linarith
  · cases prod.tags2.find? (fun t => containsSeg qHaz t || containsSeg t qHaz) <;>
      dsimp only <;> linarith

theorem pmEnvStage_ge (prod : PMProd) (qEnv : List Char)
    (s : ℚ × List PMReason) : s.1 ≤ (pmEnvStage prod qEnv s).1 := by
  unfold pmEnvStage
  split_ifs <;>
    first
      | exact le_refl _
      | (dsimp only; linarith)
      | (cases prod.tags2.find? (fun t => t = qEnv) <;> dsimp only <;> linarith)

theorem pmBump_ge (c : Bool) (a : ℚ) (r : PMReason) (ha : 0 ≤ a)
    (s : ℚ × List PMReason) : s.1 ≤ (pmBump c a r s).1 := by
  unfold pmBump
  split_ifs
  · dsimp only; linarith
  · exact le_refl _

theorem pmPrefStage_ge (prod : PMProd) (qPref : List Char)
    (s : ℚ × List PMReason) : s.1 ≤ (pmPrefStage prod qPref s).1 := by
  unfold pmPrefStage
  split_ifs
  · exact le_refl _
  · refine le_trans (pmBump_ge _ _ _ ?_ s) (le_trans (pmBump_ge _ _ _ ?_ _)
      (le_trans (pmBump_ge _ _ _ ?_ _) (le_trans (pmBump_ge _ _ _ ?_ _)
        (le_trans (pmBump_ge _ _ _ ?_ _) (pmBump_ge _ _ _ ?_ _))))) <;>
      norm_num

theorem pmIndustryStage_ge (prod : PMProd) (qInd : List Char)
    (s : ℚ × List PMReason) : s.1 ≤ (pmIndustryStage prod qInd s).1 := by
  unfold pmIndustryStage
  split_ifs
  · exact le_refl _
  · refine le_trans (pmBump_ge _ _ _ ?_ s) (le_trans (pmBump_ge _ _ _ ?_ _)
      (le_trans (pmBump_ge _ _ _ ?_ _) (pmBump_ge _ _ _ ?_ _))) <;>
      norm_num

theorem pmCutStage_ge (prod : PMProd) (qHaz qPref : List Char)
    (s : ℚ × List PMReason) : s.1 ≤ (pmCutStage prod qHaz qPref s).1 := by
  unfold pmCutStage
  split_ifs
  · cases hcl : prod.cutLevel with
    | none => exact le_refl _
    | some n =>
      dsimp only
      split_ifs
      · have hmin : (0:ℚ) ≤ min 1 ((n : ℚ) * (12/100)) := by positivity
        dsimp only
        linarith
      · exact le_refl _
  · exact le_refl _

theorem fix3_ge_of (q : ℚ) (h : 1/20 ≤ q) : 1/20 ≤ fix3 q := by
  unfold fix3
  have h50 : (50:ℤ) ≤ round (q * 1000) := by
    rw [round_eq]
    refine Int.le_floor.mpr ?_
    push_cast
    linarith
  have hc : (50:ℚ) ≤ ((round (q * 1000) : ℤ) : ℚ) := by exact_mod_cast h50
  linarith

theorem scoreProduct_ge (prod : PMProd) (query : PMQuery) :
    1/20 ≤ (scoreProduct prod query).1 := by
  show 1/20 ≤ (fix3 (min 1 ((pmCutStage prod (pmNorm query.hazard)
    (pmNorm query.pref)
    (pmIndustryStage prod
      (pmNorm (if query.industry ≠ [] then query.industry else query.industryCode))
      (pmPrefStage prod (pmNorm query.pref)
        (pmEnvStage prod (pmNorm query.env)
          (pmHazardStage prod (pmNorm query.hazard)
            ((0:ℚ), ([] : List PMReason))))))).1 + 1/20)))
  apply fix3_ge_of
  refine le_min (by norm_num) ?_
  have h0 : (((0:ℚ), ([] : List PMReason))).1 = 0 := rfl
  have h1 := pmHazardStage_ge prod (pmNorm query.hazard)
    ((0:ℚ), ([] : List PMReason))
  have h2 := pmEnvStage_ge prod (pmNorm query.env)
    (pmHazardStage prod (pmNorm query.hazard) ((0:ℚ), ([] : List PMReason)))
  have h3 := pmPrefStage_ge prod (pmNorm query.pref)
    (pmEnvStage prod (pmNorm query.env)
      (pmHazardStage prod (pmNorm query.hazard) ((0:ℚ), ([] : List PMReason))))
  have h4 := pmIndustryStage_ge prod
    (pmNorm (if query.industry ≠ [] then query.industry else query.industryCode))
    (pmPrefStage prod (pmNorm query.pref)
      (pmEnvStage prod (pmNorm query.env)
        (pmHazardStage prod (pmNorm query.hazard) ((0:ℚ), ([] : List PMReason)))))
  have h5 := pmCutStage_ge prod (pmNorm query.hazard) (pmNorm query.pref)
    (pmIndustryStage prod
      (pmNorm (if query.industry ≠ [] then query.industry else query.industryCode))
      (pmPrefStage prod (pmNorm query.pref)
        (pmEnvStage prod (pmNorm query.env)
          (pmHazardStage prod (pmNorm query.hazard)
            ((0:ℚ), ([] : List PMReason))))))
  linarith

/-- C10 (confirmed): scoreProduct's unconditional 0.05 baseline keeps every
product's score at least 0.05 after rounding, so pickProducts' positive-score
filter keeps the whole sorted catalog and the result is exactly
`min(topN, |catalog|)` products (with `topN || 6` defaulting), each scoring
at least 0.05; over a non-empty catalog the empty result is unreachable. -/
theorem c10_pickProducts_baseline (catalog : List PMProd) (query : PMQuery)
    (topN : Nat) (hne : catalog ≠ []) :
    (pickProducts catalog query topN).length =
      min (if topN = 0 then 6 else topN) catalog.length ∧
    (∀ x ∈ pickProducts catalog query topN, 1/20 ≤ x.matchScore) ∧
    pickProducts catalog query topN ≠ [] := by
  have hperm := List.perm_insertionSort pmLe (pmScoredOf catalog query)
  have hall : ∀ x ∈ (pmScoredOf catalog query).insertionSort pmLe,
      1/20 ≤ x.matchScore := by
    intro x hx
    rcases List.mem_map.mp (hperm.mem_iff.mp hx) with ⟨p, _, hpx⟩
    rw [← hpx]
    exact scoreProduct_ge p query
  have hfil : ((pmScoredOf catalog query).insertionSort pmLe).filter
      (fun x => decide (0 < x.matchScore)) =
      (pmScoredOf catalog query).insertionSort pmLe :=
    List.filter_eq_self.mpr (fun x hx =>
      decide_eq_true (by linarith [hall x hx]))
  have hlen2 : ((pmScoredOf catalog query).insertionSort pmLe).length =
      catalog.length := by
    rw [hperm.length_eq]
    exact List.length_map _ _
  have hpick : pickProducts catalog query topN =
      ((pmScoredOf catalog query).insertionSort pmLe).take
        (if topN = 0 then 6 else topN) := by
    unfold pickProducts
    rw [hfil]
  refine ⟨?_, ?_, ?_⟩
  · rw [hpick, List.length_take, hlen2]
  · intro x hx
    rw [hpick] at hx
    exact hall x (List.mem_of_mem_take hx)
  · rw [hpick]
    apply List.ne_nil_of_length_pos
    rw [List.length_take, hlen2]
    have hc : 0 < catalog.length := List.length_pos.mpr hne
    have ht : 0 < (if topN = 0 then 6 else topN) := by
      split_ifs with h
      · norm_num
      · omega
    omega

theorem c10_witness :
    (pickProducts [⟨['p'], [], [], [], [], none⟩] ⟨[], [], [], [], []⟩ 0).length =
      min (if (0:Nat) = 0 then 6 else 0)
        ([⟨['p'], [], [], [], [], none⟩] : List PMProd).length ∧
    (∀ x ∈ pickProducts [⟨['p'], [], [], [], [], none⟩] ⟨[], [], [], [], []⟩ 0,
      1/20 ≤ x.matchScore) ∧
    pickProducts [⟨['p'], [], [], [], [], none⟩] ⟨[], [], [], [], []⟩ 0 ≠ [] :=
  c10_pickProducts_baseline [⟨['p'], [], [], [], [], none⟩] ⟨[], [], [], [], []⟩ 0
    (by decide)

/- ### Claim C4 -/

theorem containsSeg_refl (p : List Char) : containsSeg p p = true := by
  cases p with
  | nil => rfl
  | cons c rest =>
    unfold containsSeg
    rw [Bool.or_eq_true]
    left
    simp [List.isPrefixOf_iff_prefix]

theorem bumpScore_only (n : Nat) (a : List (Nat × ℚ)) (h : p1Acc n a) :
    p1Only n (bumpScore n (3/2) a) := by
  rcases h with h | ⟨q, ha, hq⟩
  · subst h
    exact ⟨3/2, rfl, le_refl _⟩
  · subst ha
    refine ⟨q + 3/2, ?_, by linarith⟩
    simp [bumpScore]

theorem p1Bumps_only (n : Nat) (is : List Nat) (hall : ∀ i ∈ is, i = n) :
    ∀ a, p1Only n a → p1Only n (p1Bumps is a) := by
  induction is with
  | nil => intro a h; exact h
  | cons i rest ih =>
    intro a h
    have hi : i = n := hall i (List.mem_cons_self _ _)
    subst hi
    have hstep : p1Only i (bumpScore i (3/2) a) := bumpScore_only i a (Or.inr h)
    exact ih (fun j hj => hall j (List.mem_cons_of_mem _ hj)) _ hstep

theorem p1Bumps_acc (n : Nat) (is : List Nat) (hall : ∀ i ∈ is, i = n) :
    ∀ a, p1Acc n a → p1Acc n (p1Bumps is a) := by
  cases is with
  | nil => intro a h; exact h
  | cons i rest =>
    intro a h
    have hi : i = n := hall i (List.mem_cons_self _ _)
    subst hi
    have hstep : p1Only i (bumpScore i (3/2) a) := bumpScore_only i a h
    exact Or.inr (p1Bumps_only i rest
      (fun j hj => hall j (List.mem_cons_of_mem _ hj)) _ hstep)

theorem p1Bumps_hit (n : Nat) (is : List Nat) (hall : ∀ i ∈ is, i = n)
    (hne : is ≠ []) : ∀ a, p1Acc n a → p1Only n (p1Bumps is a) := by
  cases is with
  | nil => exact absurd rfl hne
  | cons i rest =>
    intro a h
    have hi : i = n := hall i (List.mem_cons_self _ _)
    subst hi
    exact p1Bumps_only i rest (fun j hj => hall j (List.mem_cons_of_mem _ hj)) _
      (bumpScore_only i a h)

theorem p1Step_acc (n : Nat) (txt : List Char) (e : List Char × List Nat)
    (he : containsSeg e.1 txt = true → ∀ i ∈ e.2, i = n) :
    ∀ a, p1Acc n a → p1Acc n (p1Step txt a e) := by
  intro a h
  unfold p1Step
  split_ifs with hc
  · exact p1Bumps_acc n e.2 (he hc) a h
  · exact h

theorem p1Step_only (n : Nat) (txt : List Char) (e : List Char × List Nat)
    (he : containsSeg e.1 txt = true → ∀ i ∈ e.2, i = n) :
    ∀ a, p1Only n a → p1Only n (p1Step txt a e) := by
  intro a h
  unfold p1Step
  split_ifs with hc
  · exact p1Bumps_only n e.2 (he hc) a h
  · exact h

theorem p1Fold_only (n : Nat) (txt : List Char)
    (idx : List (List Char × List Nat))
    (hidx : ∀ e ∈ idx, containsSeg e.1 txt = true → ∀ i ∈ e.2, i = n) :
    ∀ a, p1Only n a → p1Only n (idx.foldl (p1Step txt) a) := by
  induction idx with
  | nil => intro a h; exact h
  | cons e rest ih =>
    intro a h
    rw [List.foldl_cons]
    exact ih (fun f hf => hidx f (List.mem_cons_of_mem _ hf)) _
      (p1Step_only n txt e (hidx e (List.mem_cons_self _ _)) a h)

theorem p1Fold_hit (n : Nat) (txt : List Char)
    (idx : List (List Char × List Nat))
    (hidx : ∀ e ∈ idx, containsSeg e.1 txt = true → ∀ i ∈ e.2, i = n)
    (hhit : ∃ e ∈ idx, containsSeg e.1 txt = true ∧ e.2 ≠ []) :
    ∀ a, p1Acc n a → p1Only n (idx.foldl (p1Step txt) a) := by
  induction idx with
  | nil =>
    rcases hhit with ⟨e, he, _⟩
    exact absurd he (List.not_mem_nil e)
  | cons e rest ih =>
    intro a h
    rw [List.foldl_cons]
    rcases hhit with ⟨f, hf, hfc, hfne⟩
    rcases List.mem_cons.mp hf with hfe | hfr
    · subst hfe
      have h1 : p1Only n (p1Step txt a f) := by
        unfold p1Step
        rw [if_pos hfc]
        exact p1Bumps_hit n f.2 (hidx f (List.mem_cons_self _ _) hfc) hfne a h
      exact p1Fold_only n txt rest
        (fun g hg => hidx g (List.mem_cons_of_mem _ hg)) _ h1
    · exact ih (fun g hg => hidx g (List.mem_cons_of_mem _ hg))
        ⟨f, hfr, hfc, hfne⟩ _
        (p1Step_acc n txt e (hidx e (List.mem_cons_self _ _)) a h)

theorem idxInsert_sound (P : List (Nat × List Char)) (key : List Char)
    (i : Nat) (hP : (i, key) ∈ P) :
    ∀ m, (∀ e ∈ m, ∀ j ∈ e.2, (j, e.1) ∈ P) →
      ∀ e ∈ idxInsert key i m, ∀ j ∈ e.2, (j, e.1) ∈ P := by
  intro m
  induction m with
  | nil =>
    intro _ e he j hj
    rcases List.mem_singleton.mp he with rfl
    rcases List.mem_singleton.mp hj with rfl
    exact hP
  | cons f rest ih =>
    intro hm e he j hj
    rcases f with ⟨k, is⟩
    unfold idxInsert at he
    by_cases hk : k = key
    · rw [if_pos hk] at he
      by_cases hmem : i ∈ is
      · rw [if_pos hmem] at he
        rcases List.mem_cons.mp he with rfl | her
        · exact hm (k, is) (List.mem_cons_self _ _) j hj
        · exact hm e (List.mem_cons_of_mem _ her) j hj
      · rw [if_neg hmem] at he
        rcases List.mem_cons.mp he with rfl | her
        · rcases List.mem_append.mp hj with hj1 | hj2
          · exact hm (k, is) (List.mem_cons_self _ _) j hj1
          · rcases List.mem_singleton.mp hj2 with rfl
            show (j, k) ∈ P
            rw [hk]
            exact hP
        · exact hm e (List.mem_cons_of_mem _ her) j hj
    · rw [if_neg hk] at he
      rcases List.mem_cons.mp he with rfl | her
      · exact hm (k, is) (List.mem_cons_self _ _) j hj
      · exact ih (fun g hg => hm g (List.mem_cons_of_mem _ hg)) e her j hj

theorem idxFold_sound (P : List (Nat × List Char))
    (Q : List (Nat × List Char)) (hQ : ∀ p ∈ Q, p ∈ P) :
    ∀ m, (∀ e ∈ m, ∀ j ∈ e.2, (j, e.1) ∈ P) →
      ∀ e ∈ Q.foldl (fun m p => idxInsert p.2 p.1 m) m, ∀ j ∈ e.2, (j, e.1) ∈ P := by
  induction Q with
  | nil => intro m hm; exact hm
  | cons p rest ih =>
    intro m hm
    rw [List.foldl_cons]
    exact ih (fun q hq => hQ q (List.mem_cons_of_mem _ hq)) _
      (idxInsert_sound P p.2 p.1 (hQ p (List.mem_cons_self _ _)) m hm)

theorem buildIndexV3_sound (l : List Industry) :
    ∀ e ∈ buildIndexV3 l, ∀ j ∈ e.2, (j, e.1) ∈ allKeyPairs l := by
  unfold buildIndexV3
  exact idxFold_sound (allKeyPairs l) (allKeyPairs l) (fun p hp => hp) []
    (fun e he => absurd he (List.not_mem_nil e))

theorem idxInsert_has (key : List Char) (i : Nat) :
    ∀ m, ∃ e ∈ idxInsert key i m, e.1 = key ∧ e.2 ≠ [] := by
  intro m
  induction m with
  | nil => exact ⟨(key, [i]), List.mem_singleton.mpr rfl, rfl, by simp⟩
  | cons f rest ih =>
    rcases f with ⟨k, is⟩
    unfold idxInsert
    by_cases hk : k = key
    · rw [if_pos hk]
      by_cases hmem : i ∈ is
      · rw [if_pos hmem]
        exact ⟨(k, is), List.mem_cons_self _ _, hk, List.ne_nil_of_mem hmem⟩
      · rw [if_neg hmem]
        exact ⟨(k, is ++ [i]), List.mem_cons_self _ _, hk, by simp⟩
    · rw [if_neg hk]
      rcases ih with ⟨e, he, hek, hene⟩
      exact ⟨e, List.mem_cons_of_mem _ he, hek, hene⟩

theorem idxInsert_keep (key : List Char) (i : Nat) (key2 : List Char) :
    ∀ m, (∃ e ∈ m, e.1 = key2 ∧ e.2 ≠ []) →
      ∃ e ∈ idxInsert key i m, e.1 = key2 ∧ e.2 ≠ [] := by
  intro m
  induction m with
  | nil => rintro ⟨e, he, _⟩; exact absurd he (List.not_mem_nil e)
  | cons f rest ih =>
    rintro ⟨e, he, hek, hene⟩
    rcases f with ⟨k, is⟩
    unfold idxInsert
    by_cases hk : k = key
    · rw [if_pos hk]
      rcases List.mem_cons.mp he with rfl | her
      · by_cases hmem : i ∈ is
        · rw [if_pos hmem]
          exact ⟨(k, is), List.mem_cons_self _ _, hek, hene⟩
        · rw [if_neg hmem]
          exact ⟨(k, is ++ [i]), List.mem_cons_self _ _, hek, by simp⟩
      · exact ⟨e, List.mem_cons_of_mem _ her, hek, hene⟩
    · rw [if_neg hk]
      rcases List.mem_cons.mp he with rfl | her
      · exact ⟨(k, is), List.mem_cons_self _ _, hek, hene⟩
      · rcases ih ⟨e, her, hek, hene⟩ with ⟨g, hg, hgk, hgne⟩
        exact ⟨g, List.mem_cons_of_mem _ hg, hgk, hgne⟩

theorem idxFold_keep (key : List Char) (Q : List (Nat × List Char)) :
    ∀ m, (∃ e ∈ m, e.1 = key ∧ e.2 ≠ []) →
      ∃ e ∈ Q.foldl (fun m p => idxInsert p.2 p.1 m) m, e.1 = key ∧ e.2 ≠ [] := by
  induction Q with
  | nil => intro m hm; exact hm
  | cons p rest ih =>
    intro m hm
    rw [List.foldl_cons]
    exact ih _ (idxInsert_keep p.2 p.1 key m hm)

theorem buildIndexV3_has (l : List Industry) (n : Nat) (key : List Char)
    (h : (n, key) ∈ allKeyPairs l) :
    ∃ e ∈ buildIndexV3 l, e.1 = key ∧ e.2 ≠ [] := by
  rcases List.append_of_mem h with ⟨Q1, Q2, hq⟩
  unfold buildIndexV3
  rw [hq, List.foldl_append, List.foldl_cons]
  exact idxFold_keep key Q2 _ (idxInsert_has key n _)

theorem enumFrom_append {α : Type} (xs ys : List α) :
    ∀ m, enumFrom m (xs ++ ys) = enumFrom m xs ++ enumFrom (m + xs.length) ys := by
  induction xs with
  | nil => intro m; simp [enumFrom]
  | cons x rest ih =>
    intro m
    rw [List.cons_append]
    show (m, x) :: enumFrom (m + 1) (rest ++ ys) =
      enumFrom m (x :: rest) ++ enumFrom (m + (x :: rest).length) ys
    rw [ih (m + 1)]
    have hm : m + (x :: rest).length = m + 1 + rest.length := by
      rw [List.length_cons]; omega
    rw [hm]
    rfl

theorem enumFrom_getElem {α : Type} (a : α) (i : Nat) :
    ∀ (l : List α) (m : Nat), (i, a) ∈ enumFrom m l →
      m ≤ i ∧ l[i - m]? = some a := by
  intro l
  induction l with
  | nil => intro m h; exact absurd h (List.not_mem_nil _)
  | cons x rest ih =>
    intro m h
    unfold enumFrom at h
    rcases List.mem_cons.mp h with heq | hmem
    · have hi : i = m := congrArg Prod.fst heq
      have ha : a = x := congrArg Prod.snd heq
      subst hi
      subst ha
      simp
    · rcases ih (m + 1) hmem with ⟨hle, hget⟩
      refine ⟨by omega, ?_⟩
      have hsub : i - m = (i - (m + 1)) + 1 := by omega
      rw [hsub, List.getElem?_cons_succ]
      exact hget

theorem allKeyPairs_origin (l : List Industry) (i : Nat) (k : List Char)
    (h : (i, k) ∈ allKeyPairs l) :
    ∃ ind, l[i]? = some ind ∧ ∃ kw ∈ ind.keywords, k ∈ keysOfKeyword kw := by
  unfold allKeyPairs at h
  rcases List.mem_flatMap.mp h with ⟨e, he, hin⟩
  rcases List.mem_flatMap.mp hin with ⟨kw, hkw, hmap⟩
  rcases List.mem_map.mp hmap with ⟨key, hkey, heq⟩
  have hi : e.1 = i := congrArg Prod.fst heq
  have hk : key = k := congrArg Prod.snd heq
  subst hk
  rcases e with ⟨j, ind⟩
  have hj : j = i := hi
  subst hj
  rcases enumFrom_getElem ind j l 0 he with ⟨_, hget⟩
  rw [Nat.sub_zero] at hget
  exact ⟨ind, hget, kw, hkw, hkey⟩

theorem keysOfKeyword_head (kw : List Char) (h : v3Normalize kw ≠ []) :
    v3Normalize kw ∈ keysOfKeyword kw := by
  simp only [keysOfKeyword]
  rw [if_neg h]
  exact List.mem_cons_self _ _

/-- C4 (corrected): adding a valid entity whose single keyword K normalizes
to a non-empty phrase that no existing indexed key occurs in makes a
subsequent bestMatch(K) return that entity through the phrase index with the
maximal score 1 (above any threshold below 1); but without the
single-keyword restriction the round trip can fail the threshold, because
phase scores are divided by the entity's keyword count
(see the diluted-keyword counterexample). -/
theorem c4_roundtrip (olds : List Industry) (obj : Industry) (K : List Char)
    (l : List Industry) (threshold : ℚ)
    (hkw : obj.keywords = [K])
    (hnk : v3Normalize K ≠ [])
    (hold : ∀ ind ∈ olds, ∀ kw ∈ ind.keywords, ∀ key ∈ keysOfKeyword kw,
      containsSeg key (v3Normalize K) = false)
    (hadd : addIndustry olds obj = some l) :
    bestMatchV3 l K threshold = some ⟨obj.code, 1, V3Matched.phraseIdx⟩ := by
  have hl : olds ++ [obj] = l := by
    unfold addIndustry at hadd
    by_cases hc : obj.code = []
    · rw [if_pos hc] at hadd
      exact absurd hadd (by simp)
    · rw [if_neg hc] at hadd
      exact Option.some.inj hadd
  subst hl
  have hobj : (olds ++ [obj])[olds.length]? = some obj := by
    rw [List.getElem?_append_right (le_refl _)]
    simp
  have hidx : ∀ e ∈ buildIndexV3 (olds ++ [obj]),
      containsSeg e.1 (v3Normalize K) = true → ∀ i ∈ e.2, i = olds.length := by
    intro e he hc i hi
    have hp := buildIndexV3_sound (olds ++ [obj]) e he i hi
    rcases allKeyPairs_origin (olds ++ [obj]) i e.1 hp with
      ⟨ind, hget, kw, hkw2, hkey⟩
    rw [List.getElem?_append] at hget
    by_cases hlt : i < olds.length
    · rw [if_pos hlt] at hget
      have hmem : ind ∈ olds := List.getElem?_mem hget
      have hfalse := hold ind hmem kw hkw2 e.1 hkey
      rw [hc] at hfalse
      exact absurd hfalse (by simp)
    · rw [if_neg hlt] at hget
      cases hz : i - olds.length with
      | zero => omega
      | succ j =>
        rw [hz, List.getElem?_cons_succ, List.getElem?_nil] at hget
        exact absurd hget (by simp)
  have hpair : (olds.length, v3Normalize K) ∈ allKeyPairs (olds ++ [obj]) := by
    unfold allKeyPairs
    refine List.mem_flatMap.mpr ⟨(olds.length, obj), ?_, ?_⟩
    · rw [enumFrom_append]
      exact List.mem_append.mpr (Or.inr (by simp [enumFrom]))
    · refine List.mem_flatMap.mpr ⟨K, ?_, ?_⟩
      · rw [hkw]
        exact List.mem_singleton.mpr rfl
      · exact List.mem_map.mpr ⟨v3Normalize K, keysOfKeyword_head K hnk, rfl⟩
  have hfound : p1Only olds.length
      (phase1Found (buildIndexV3 (olds ++ [obj])) (v3Normalize K)) := by
    rcases buildIndexV3_has (olds ++ [obj]) olds.length (v3Normalize K) hpair
      with ⟨e, he, hek, hene⟩
    have hhit : ∃ e ∈ buildIndexV3 (olds ++ [obj]),
        containsSeg e.1 (v3Normalize K) = true ∧ e.2 ≠ [] :=
      ⟨e, he, by rw [hek]; exact containsSeg_refl _, hene⟩
    unfold phase1Found
    exact p1Fold_hit olds.length (v3Normalize K)
      (buildIndexV3 (olds ++ [obj])) hidx hhit [] (Or.inl rfl)
  have hden : kwDenom (olds ++ [obj]) olds.length = 1 := by
    unfold kwDenom
    rw [hobj]
    simp [hkw]
  have hcode : codeOf (olds ++ [obj]) olds.length = obj.code := by
    unfold codeOf
    rw [hobj]
    rfl
  rcases hfound with ⟨q, hq, hq32⟩
  have hpick : pickBestFound (olds ++ [obj]) [(olds.length, q)] =
      some (olds.length, q / kwDenom (olds ++ [obj]) olds.length) := rfl
  have hp1 : phase1Res (olds ++ [obj]) (buildIndexV3 (olds ++ [obj]))
      (v3Normalize K) threshold =
      some ⟨obj.code, 1, V3Matched.phraseIdx⟩ := by
    simp only [phase1Res]
    rw [hq]
    rw [hpick, hden, div_one]
    simp only [List.isEmpty_cons, Bool.false_eq_true, if_false]
    rw [if_pos (by linarith : (1:ℚ)/2 ≤ q)]
    rw [hcode]
  simp only [bestMatchV3]
  rw [if_neg hnk]
  rw [hp1]

theorem c4_witness :
    bestMatchV3 [⟨"zz".toList, [], [], ["zzzz".toList]⟩,
      ⟨"x".toList, [], [], ["abcd".toList]⟩] "abcd".toList (1/4) =
      some ⟨"x".toList, 1, V3Matched.phraseIdx⟩ :=
  c4_roundtrip [⟨"zz".toList, [], [], ["zzzz".toList]⟩]
    ⟨"x".toList, [], [], ["abcd".toList]⟩ "abcd".toList
    [⟨"zz".toList, [], [], ["zzzz".toList]⟩, ⟨"x".toList, [], [], ["abcd".toList]⟩]
    (1/4) rfl (by decide) (by decide) (by decide)

theorem c4_counterexample :
    addIndustry [] dilutedInd = some [dilutedInd] ∧
    bestMatchV3 [dilutedInd] "abcd".toList (1/4) =
      some ⟨"x".toList, 9/50, V3Matched.substrKey "abcd".toList⟩ ∧
    (9/50 : ℚ) < 1/4 :=
  ⟨by decide, by decide, by decide⟩

end SG
